import Mathlib

/-!
Shallow embedding of the outbound message rendering/splitting subsystem of
the Telegram chatbot (`src/bot.js`): `splitLongMessage`, `splitParagraph`,
`splitSentence`, `forceSplit`, the protected-span extraction/restoration,
`hasProblematicMarkdown` and `markdownToPlainText`.

Texts are modelled as `List Char`; `.length` of a JS string corresponds to
list length for the inputs considered here (no surrogate pairs).  The JS
fractional thresholds `maxLength * 0.8` etc. are modelled exactly as
rational comparisons (`10 * len ≤ 8 * L`), which agrees with the IEEE
double computation for every realistic budget.  JS `while` loops are
modelled with an explicit fuel parameter; with fuel `length + 1` the fuel
can only run out where the JS loop itself would not terminate
(`Math.floor(maxLength * 0.6) = 0`, i.e. `maxLength ≤ 1`).
-/

namespace Chatbot

/-- JS whitespace class (`\s`, `String.prototype.trim`), ASCII fragment. -/
def isWs (c : Char) : Bool :=
  c = ' ' || c = '\n' || c = '\t' || c = '\r' || c = '\x0b' || c = '\x0c'

/-- JS `String.prototype.trim`: strip whitespace from both ends. -/
def trimWs (s : List Char) : List Char :=
  ((s.dropWhile isWs).reverse.dropWhile isWs).reverse

/-- `startsWith pat s`: `s` begins with `pat`. -/
def startsWith : List Char → List Char → Bool
  | [], _ => true
  | _ :: _, [] => false
  | p :: ps, c :: cs => p = c && startsWith ps cs

/-- `containsSub pat s`: `pat` occurs as a contiguous substring of `s`. -/
def containsSub (pat : List Char) : List Char → Bool
  | [] => startsWith pat []
  | c :: cs => startsWith pat (c :: cs) || containsSub pat cs

/-- JS `s.split(sep)` for a non-empty separator string, with fuel.
`cur` is the reversed current piece. -/
def splitOnSepAux (sep : List Char) : Nat → List Char → List Char → List (List Char)
  | 0, cur, s => [cur.reverse ++ s]
  | _ + 1, cur, [] => [cur.reverse]
  | f + 1, cur, c :: cs =>
    if startsWith sep (c :: cs) then
      cur.reverse :: splitOnSepAux sep f [] ((c :: cs).drop sep.length)
    else
      splitOnSepAux sep f (c :: cur) cs

def splitOnSep (sep s : List Char) : List (List Char) :=
  splitOnSepAux sep (s.length + 1) [] s

/-- Split step of the JS regex `/(?<=[.!?])\s+/` used by `splitParagraph`:
a maximal whitespace run preceded by `.`, `!` or `?` separates sentences.
`prev` is the character before the scan position. -/
def sentSplitAux : Nat → Char → List Char → List Char → List (List Char)
  | 0, _, cur, s => [cur.reverse ++ s]
  | _ + 1, _, cur, [] => [cur.reverse]
  | f + 1, prev, cur, c :: cs =>
    if (prev = '.' || prev = '!' || prev = '?') && isWs c then
      cur.reverse :: sentSplitAux f ' ' [] ((c :: cs).dropWhile isWs)
    else
      sentSplitAux f c (c :: cur) cs

def sentSplit (s : List Char) : List (List Char) :=
  sentSplitAux (s.length + 1) ' ' [] s

/-! ## Placeholders (`___CODE_BLOCK_i___`, `___INLINE_CODE_i___`) -/

def digitChar (n : Nat) : Char := Char.ofNat (48 + n)

/-- Decimal digits of `n` (JS number-to-string for the placeholder index). -/
def natDigits : Nat → Nat → List Char
  | 0, _ => []
  | f + 1, n =>
    if n < 10 then [digitChar n] else natDigits f (n / 10) ++ [digitChar (n % 10)]

/-- Value of a decimal digit string (used to show placeholder indices are
faithful). -/
def digitsVal : List Char → Nat :=
  List.foldl (fun a c => 10 * a + (c.toNat - 48)) 0

def codePh (i : Nat) : List Char :=
  "___CODE_BLOCK_".toList ++ natDigits (i + 1) i ++ "___".toList

def inlinePh (i : Nat) : List Char :=
  "___INLINE_CODE_".toList ++ natDigits (i + 1) i ++ "___".toList

/-! ## Protected-span extraction

`fenceSplitAux` models scanning for `/```[\s\S]*?```/g`: at a position
starting with three backticks whose closing three backticks exist later,
the lazy match runs to the earliest closing; otherwise the scan advances
one character.  It returns the segments between matches and the matches,
with `segments.length = matches.length + 1`. -/

/-- Index of the first occurrence of `pat` in `s`. -/
def firstIdx (pat : List Char) : List Char → Option Nat
  | [] => if startsWith pat [] then some 0 else none
  | c :: cs =>
    if startsWith pat (c :: cs) then some 0
    else (firstIdx pat cs).map (· + 1)

def bt3 : List Char := "```".toList

def fenceSplitAux : Nat → List Char → List Char → List (List Char) × List (List Char)
  | 0, cur, s => ([cur.reverse ++ s], [])
  | _ + 1, cur, [] => ([cur.reverse], [])
  | f + 1, cur, c :: cs =>
    if startsWith bt3 (c :: cs) then
      match firstIdx bt3 ((c :: cs).drop 3) with
      | some k =>
        let m := (c :: cs).take (3 + k + 3)
        let rest := (c :: cs).drop (3 + k + 3)
        let (segs, ms) := fenceSplitAux f [] rest
        (cur.reverse :: segs, m :: ms)
      | none => fenceSplitAux f (c :: cur) cs
    else fenceSplitAux f (c :: cur) cs

def fenceSplit (s : List Char) : List (List Char) × List (List Char) :=
  fenceSplitAux (s.length + 1) [] s

/-- Scanning for `/`([^`\n]+?)`/g`: a backtick, a non-empty run free of
backticks and newlines, and a closing backtick. -/
def inlineSplitAux : Nat → List Char → List Char → List (List Char) × List (List Char)
  | 0, cur, s => ([cur.reverse ++ s], [])
  | _ + 1, cur, [] => ([cur.reverse], [])
  | f + 1, cur, c :: cs =>
    if c = '`' then
      let content := cs.takeWhile (fun d => !(d = '`' || d = '\n'))
      match cs.drop content.length with
      | '`' :: rest2 =>
        if content.isEmpty then inlineSplitAux f (c :: cur) cs
        else
          let (segs, ms) := inlineSplitAux f [] rest2
          (cur.reverse :: segs, ('`' :: content ++ ['`']) :: ms)
      | _ => inlineSplitAux f (c :: cur) cs
    else inlineSplitAux f (c :: cur) cs

def inlineSplit (s : List Char) : List (List Char) × List (List Char) :=
  inlineSplitAux (s.length + 1) [] s

/-- Interleave segments with numbered placeholders: the `replace` callback
returns `ph i` for the `i`-th match. -/
def joinWithPh (ph : Nat → List Char) : Nat → List (List Char) → List Char
  | _, [] => []
  | _, [s] => s
  | i, s :: ss => s ++ ph i ++ joinWithPh ph (i + 1) ss

/-- Protected-span extraction of `splitLongMessage` (bot.js lines 438-452):
fenced code blocks first, then inline code, each replaced by a numbered
placeholder.  Returns `(textWithPlaceholders, codeBlocks, inlineCodeBlocks)`. -/
def extract (t : List Char) : List Char × List (List Char) × List (List Char) :=
  let fc := fenceSplit t
  let tp1 := joinWithPh codePh 0 fc.1
  let ic := inlineSplit tp1
  (joinWithPh inlinePh 0 ic.1, fc.2, ic.2)

/-- ECMA-262 `GetSubstitution` for a string replacement and a regex with
no capture groups, as `String.prototype.replace` applies it to each match:
`$$` emits `$`, `$&` the matched text, `` $` `` the part of the original
subject before the match, `$'` the part after it; any other `$` (including
`$1` when there is no group 1) is literal. -/
def getSubstitution (matched before after : List Char) : Nat → List Char → List Char
  | 0, r => r
  | _ + 1, [] => []
  | f + 1, c :: rest =>
    if c = '$' then
      if rest.headD ' ' = '$' then '$' :: getSubstitution matched before after f rest.tail
      else if rest.headD ' ' = '&' then
        matched ++ getSubstitution matched before after f rest.tail
      else if rest.headD ' ' = '`' then
        before ++ getSubstitution matched before after f rest.tail
      else if rest.headD ' ' = '\'' then
        after ++ getSubstitution matched before after f rest.tail
      else '$' :: getSubstitution matched before after f rest
    else c :: getSubstitution matched before after f rest

/-- JS `s.replace(new RegExp(pat, 'g'), repl)` for a literal, regex-safe,
group-free pattern: leftmost non-overlapping occurrences, each replaced by
the `GetSubstitution` of `repl` at that match.  `pre` holds the already
scanned original characters in reverse, so that `` $` `` and `$'` refer to
the original subject string around the match position. -/
def replaceAllAux (pat repl : List Char) : Nat → List Char → List Char → List Char
  | 0, _, s => s
  | _ + 1, _, [] => []
  | f + 1, pre, c :: cs =>
    if startsWith pat (c :: cs) then
      getSubstitution pat pre.reverse ((c :: cs).drop pat.length)
          (repl.length + 1) repl ++
        replaceAllAux pat repl f (pat.reverse ++ pre) ((c :: cs).drop pat.length)
    else
      c :: replaceAllAux pat repl f (c :: pre) cs

def replaceAll (pat repl : List Char) (fuel : Nat) (s : List Char) : List Char :=
  replaceAllAux pat repl fuel [] s

/-- Placeholder restoration (bot.js lines 523-538): inline code first,
then code blocks, each `forEach` in ascending index order. -/
def restoreTables (cbs ics : List (List Char)) (chunk : List Char) : List Char :=
  let r1 := (List.range ics.length).foldl
    (fun s i => replaceAll (inlinePh i) (ics.getD i []) (s.length + 1) s) chunk
  (List.range cbs.length).foldl
    (fun s i => replaceAll (codePh i) (cbs.getD i []) (s.length + 1) s) r1

/-! ## Segmentation tiers -/

/-- The word-tier hard cut of `splitSentence`: slices of
`Math.floor(maxLength * 0.6)` characters while the remainder exceeds
`maxLength * 0.6`.  Returns the pushed slices and the final remainder. -/
def sentCutLoop (L : Nat) : Nat → List Char → List (List Char) × List Char
  | 0, w => ([], w)
  | f + 1, w =>
    if 10 * w.length > 6 * L then
      let piece := w.take (6 * L / 10)
      let r := sentCutLoop L f (w.drop (6 * L / 10))
      (piece :: r.1, r.2)
    else ([], w)

/-- `splitSentence`'s loop over the words of the sentence (bot.js 583-620).
`cur` is `currentChunk`, `acc` the chunks pushed so far. -/
def splitSentenceGo (L : Nat) : List Char → List (List Char) → List (List Char) → List (List Char)
  | cur, acc, [] => acc ++ (if trimWs cur = [] then [] else [trimWs cur])
  | cur, acc, w :: ws =>
    let pot := if cur = [] then w else cur ++ ' ' :: w
    if 10 * pot.length ≤ 6 * L then splitSentenceGo L pot acc ws
    else
      let acc1 := acc ++ (if trimWs cur = [] then [] else [trimWs cur])
      if 10 * w.length > 6 * L then
        let r := sentCutLoop L (w.length + 1) w
        splitSentenceGo L r.2 (acc1 ++ r.1) ws
      else splitSentenceGo L w acc1 ws

def splitSentence (L : Nat) (sentence : List Char) : List (List Char) :=
  splitSentenceGo L [] [] (splitOnSep [' '] sentence)

/-- `splitParagraph`'s loop over sentences (bot.js 544-580). -/
def splitParagraphGo (L : Nat) : List Char → List (List Char) → List (List Char) → List (List Char)
  | cur, acc, [] => acc ++ (if trimWs cur = [] then [] else [trimWs cur])
  | cur, acc, s :: ss =>
    let pot := if cur = [] then s else cur ++ ' ' :: s
    if 10 * pot.length ≤ 7 * L then splitParagraphGo L pot acc ss
    else
      let acc1 := acc ++ (if trimWs cur = [] then [] else [trimWs cur])
      if 10 * s.length > 5 * L then
        splitParagraphGo L [] (acc1 ++ splitSentence L s) ss
      else splitParagraphGo L s acc1 ss

def splitParagraph (L : Nat) (paragraph : List Char) : List (List Char) :=
  splitParagraphGo L [] [] (sentSplit paragraph)

/-- `splitLongMessage`'s paragraph loop (bot.js 455-490). -/
def splitLongGo (L : Nat) : List Char → List (List Char) → List (List Char) → List (List Char)
  | cur, acc, [] => acc ++ (if trimWs cur = [] then [] else [trimWs cur])
  | cur, acc, p :: ps =>
    let pot := if cur = [] then p else cur ++ '\n' :: '\n' :: p
    if 10 * pot.length ≤ 8 * L then splitLongGo L pot acc ps
    else
      let acc1 := acc ++ (if trimWs cur = [] then [] else [trimWs cur])
      if 10 * p.length > 6 * L then
        splitLongGo L [] (acc1 ++ splitParagraph L p) ps
      else splitLongGo L p acc1 ps

/-- `forceSplit`'s inner hard cut of an overlong word at exactly `maxLength`. -/
def forceWordCut (L : Nat) : Nat → List Char → List (List Char) × List Char
  | 0, w => ([], w)
  | f + 1, w =>
    if w.length > L then
      let r := forceWordCut L f (w.drop L)
      (w.take L :: r.1, r.2)
    else ([], w)

/-- `forceSplit`'s loop over the words of an overlong line; `lc` is
`lineChunk`, chunks are pushed into `acc`.  Returns `(chunks, lineChunk)`. -/
def forceInnerGo (L : Nat) : List Char → List (List Char) → List (List Char) →
    List (List Char) × List Char
  | lc, acc, [] => (acc, lc)
  | lc, acc, w :: ws =>
    let pot := if lc = [] then w else lc ++ ' ' :: w
    if pot.length ≤ L then forceInnerGo L pot acc ws
    else
      let acc1 := acc ++ (if trimWs lc = [] then [] else [trimWs lc])
      if w.length > L then
        let r := forceWordCut L (w.length + 1) w
        forceInnerGo L r.2 (acc1 ++ r.1) ws
      else forceInnerGo L w acc1 ws

/-- `forceSplit`'s loop over lines (bot.js 623-681). -/
def forceSplitGo (L : Nat) : List Char → List (List Char) → List (List Char) → List (List Char)
  | cur, acc, [] => acc ++ (if trimWs cur = [] then [] else [trimWs cur])
  | cur, acc, l :: ls =>
    let pot := if cur = [] then l else cur ++ '\n' :: l
    if pot.length ≤ L then forceSplitGo L pot acc ls
    else
      let acc1 := acc ++ (if trimWs cur = [] then [] else [trimWs cur])
      if l.length > L then
        let r := forceInnerGo L [] acc1 (splitOnSep [' '] l)
        forceSplitGo L r.2 r.1 ls
      else forceSplitGo L l acc1 ls

def forceSplit (L : Nat) (text : List Char) : List (List Char) :=
  forceSplitGo L [] [] (splitOnSep ['\n'] text)

/-- Paragraph-tier chunk list of `splitLongMessage` on the
placeholder-substituted text (before validation and restoration). -/
def mainChunks (text : List Char) (L : Nat) : List (List Char) :=
  splitLongGo L [] [] (splitOnSep ['\n', '\n'] (extract text).1)

/-- The chunk list of `splitLongMessage` before placeholder restoration:
`[text]` on the short-input path, the force-split list on the
single-oversized-chunk path, otherwise the validated list. -/
def preChunks (text : List Char) (L : Nat) : List (List Char) :=
  if text.length ≤ L then [text]
  else
    let cs := mainChunks text L
    if cs.length = 1 ∧ L < (cs.headD []).length then forceSplit L (cs.headD [])
    else cs.flatMap (fun c => if L < c.length then forceSplit L c else [c])

/-- `splitLongMessage(text, maxLength)` (bot.js 427-540). -/
def splitLongMessage (text : List Char) (L : Nat) : List (List Char) :=
  if text.length ≤ L then [text]
  else
    let e := extract text
    let cs := mainChunks text L
    if cs.length = 1 ∧ L < (cs.headD []).length then
      (forceSplit L (cs.headD [])).map (restoreTables e.2.1 e.2.2)
    else
      let validated := cs.flatMap (fun c => if L < c.length then forceSplit L c else [c])
      let restored := validated.map (restoreTables e.2.1 e.2.2)
      if restored.isEmpty then [text] else restored

/-- Total number of occurrences of `ch` across a list of chunks. -/
def countSum (ch : Char) (ls : List (List Char)) : Nat :=
  (ls.map (List.count ch)).sum

/-- No two adjacent newlines (what membership in the `split('\n\n')`
pieces guarantees). -/
def goodNN (l : List Char) : Prop :=
  List.Chain' (fun c d => ¬(c = '\n' ∧ d = '\n')) l

/-! ## `hasProblematicMarkdown` (bot.js 744-800) -/

/-- JS `\w` (`[A-Za-z0-9_]`). -/
def isWordChar (c : Char) : Bool := c.isAlpha || c.isDigit || c = '_'

/-- Remove fenced code blocks, then inline code, from the analysed text
(bot.js 746-753): the same scanners as extraction, with the matches
replaced by nothing. -/
def stripCodeForAnalysis (t : List Char) : List Char :=
  ((inlineSplit ((fenceSplit t).1.flatten)).1).flatten

/-- Count of non-overlapping `/\*\*/g` matches. -/
def boldCount : List Char → Nat
  | '*' :: '*' :: rest => boldCount rest + 1
  | _ :: rest => boldCount rest
  | [] => 0

/-- Count of `/(?<!\w)_(?!\w)|(?!\w)_(?=\w)/g` matches; `prev` is the
character before the scan position (a non-word stand-in at the start).
The second alternative is kept literally: its `(?!\w)` looks at the `_`
itself, so it never fires. -/
def underscoreCount : Char → List Char → Nat
  | _, [] => 0
  | prev, c :: rest =>
    (if c = '_' &&
        ((!isWordChar prev && !(match rest with | [] => false | d :: _ => isWordChar d)) ||
         (!isWordChar c && (match rest with | [] => false | d :: _ => isWordChar d)))
      then 1 else 0) + underscoreCount c rest

def asteriskBad (ta : List Char) : Bool :=
  let tot := ta.count '*'
  let bold := boldCount ta
  tot ≠ 0 && (bold % 2 ≠ 0 || (tot - 2 * bold) % 2 ≠ 0)

def underscoreBad (ta : List Char) : Bool :=
  underscoreCount ' ' ta % 2 ≠ 0

def bracketBad (ta : List Char) : Bool :=
  ta.count '[' ≠ ta.count ']'

/-- The parenthesis check of bot.js 785-797.  The source also computes
`openParensInLinks`/`closeParensInLinks` from the link pattern, but those
variables are never used: the verdict compares the raw totals. -/
def parenBad (ta : List Char) : Bool :=
  ta.count '(' ≠ ta.count ')'

def hasProblematicMarkdown (t : List Char) : Bool :=
  let ta := stripCodeForAnalysis t
  asteriskBad ta || underscoreBad ta || bracketBad ta || parenBad ta

/-- Scanner for the link pattern `/\[([^\]]*)\]\([^)]*\)/g` (the pattern
the spec's parenthesis rule refers to): segments outside links and the
link matches. -/
def linkSplitAux : Nat → List Char → List Char → List (List Char) × List (List Char)
  | 0, cur, s => ([cur.reverse ++ s], [])
  | _ + 1, cur, [] => ([cur.reverse], [])
  | f + 1, cur, c :: cs =>
    if c = '[' then
      let label := cs.takeWhile (fun d => !(d = ']'))
      match cs.drop label.length with
      | ']' :: '(' :: rest =>
        let url := rest.takeWhile (fun d => !(d = ')'))
        match rest.drop url.length with
        | ')' :: rest2 =>
          let r := linkSplitAux f [] rest2
          (cur.reverse :: r.1, ('[' :: label ++ ']' :: '(' :: url ++ [')']) :: r.2)
        | _ => linkSplitAux f (c :: cur) cs
      | _ => linkSplitAux f (c :: cur) cs
    else linkSplitAux f (c :: cur) cs

/-- The spec's parenthesis rule (§4.3): `(` and `)` counted outside valid
`[text](url)` link constructs must balance.  This follows the spec's words
and is compared against `parenBad`, which the code actually uses. -/
def specParenMismatch (t : List Char) : Bool :=
  let ta := stripCodeForAnalysis t
  let outside := (linkSplitAux (ta.length + 1) [] ta).1.flatten
  outside.count '(' ≠ outside.count ')'

/-! ## `markdownToPlainText` (bot.js 802-815)

Each `.replace(regex, repl)` is one left-to-right scan.  `scanRepl step`
applies `step` at every position: `step lineStart s = some (repl, rest,
lineStart')` consumes a non-empty match, otherwise the scan advances one
character.  Fuel exhaustion returns `none`; totality is proved below. -/

def scanRepl (step : Bool → List Char → Option (List Char × List Char × Bool)) :
    Nat → Bool → List Char → Option (List Char)
  | 0, _, _ => none
  | _ + 1, _, [] => some []
  | f + 1, ls, c :: cs =>
    match step ls (c :: cs) with
    | some (r, rest, nls) => (scanRepl step f nls rest).map (fun t => r ++ t)
    | none => (scanRepl step f (c = '\n') cs).map (fun t => c :: t)

/-- The optional single `\n` after the fence opener and language tag. -/
def dropOptNl : List Char → List Char
  | '\n' :: r => r
  | s => s

/-- Pass 1: ``/```(\w+)?\n?([\s\S]*?)```/g`` to `「CODE」\n$2\n「/CODE」`. -/
def mdStepCode (_ : Bool) (s : List Char) : Option (List Char × List Char × Bool) :=
  if startsWith bt3 s then
    let rest2 := dropOptNl ((s.drop 3).drop ((s.drop 3).takeWhile isWordChar).length)
    match firstIdx bt3 rest2 with
    | some k =>
      some ("「CODE」\n".toList ++ rest2.take k ++ "\n「/CODE」".toList,
        rest2.drop (k + 3), false)
    | none => none
  else none

/-- Pass 2: `` /`([^`\n]+?)`/g `` to `〖$1〗`. -/
def mdStepInline (_ : Bool) (s : List Char) : Option (List Char × List Char × Bool) :=
  match s with
  | '`' :: cs =>
    let content := cs.takeWhile (fun d => !(d = '`' || d = '\n'))
    match cs.drop content.length with
    | '`' :: rest2 =>
      if content.isEmpty then none
      else some ('〖' :: content ++ ['〗'], rest2, false)
    | _ => none
  | _ => none

/-- Pass 3: `/\*\*(.*?)\*\*/g` to `【$1】`. -/
def mdStepBold (_ : Bool) (s : List Char) : Option (List Char × List Char × Bool) :=
  if startsWith ('*' :: ['*']) s then
    let line := (s.drop 2).takeWhile (fun d => !(d = '\n'))
    match firstIdx ('*' :: ['*']) line with
    | some k => some ('【' :: line.take k ++ ['】'], s.drop (2 + k + 2), false)
    | none => none
  else none

/-- Passes 4 and 5: `/\*(.*?)\*/g` and `/_(.*?)_/g`, dropping the marker. -/
def mdStepDelim (m : Char) (_ : Bool) (s : List Char) :
    Option (List Char × List Char × Bool) :=
  match s with
  | c :: cs =>
    if c = m then
      let line := cs.takeWhile (fun d => !(d = '\n'))
      match firstIdx [m] line with
      | some k => some (line.take k, s.drop (1 + k + 1), false)
      | none => none
    else none
  | [] => none

/-- The lazy search of `/\[(.*?)\]\(.*?\)/g` after an opening `[`: find the
first `](` whose following lazy url is closed by `)` on the same line;
on failure of the url part, the label keeps growing (JS backtracking). -/
def linkLazyAux : Nat → List Char → List Char → Option (List Char × List Char)
  | 0, _, _ => none
  | _ + 1, _, [] => none
  | f + 1, lab, c :: t =>
    if c = ']' ∧ t.headD ' ' = '(' ∧ t ≠ [] then
      let t2 := t.tail
      let found := t2.drop (t2.takeWhile (fun d => !(d = ')' || d = '\n'))).length
      if found.headD ' ' = ')' ∧ found ≠ [] then some (lab.reverse, found.tail)
      else linkLazyAux f (']' :: lab) ('(' :: t2)
    else if c = '\n' then none
    else linkLazyAux f (c :: lab) t

/-- Pass 6: `/\[(.*?)\]\(.*?\)/g` to `🔗$1`. -/
def mdStepLink (_ : Bool) (s : List Char) : Option (List Char × List Char × Bool) :=
  match s with
  | '[' :: cs =>
    match linkLazyAux (cs.length + 1) [] cs with
    | some (lab, rest) => some ('🔗' :: lab, rest, false)
    | none => none
  | _ => none

/-- Passes 7-9: `/^X\s*/gm` for a line-start marker `X` (`#+`, `>`, `*`),
replaced by a glyph prefix.  `many` says whether the marker may repeat. -/
def mdStepLineMark (m : Char) (many : Bool) (repl : List Char) (ls : Bool)
    (s : List Char) : Option (List Char × List Char × Bool) :=
  match s with
  | c :: cs =>
    if ls && c = m then
      let marks := if many then cs.takeWhile (fun d => d = m) else []
      let after := cs.drop marks.length
      let ws := after.takeWhile isWs
      some (repl, after.drop ws.length, ws.getLastD ' ' = '\n')
    else none
  | [] => none

/-- Pass 10: `/^\d+\.\s*/gm` to `◯ `. -/
def mdStepNumbered (ls : Bool) (s : List Char) : Option (List Char × List Char × Bool) :=
  match s with
  | c :: cs =>
    if ls && c.isDigit then
      let digits := cs.takeWhile Char.isDigit
      match cs.drop digits.length with
      | '.' :: after =>
        let ws := after.takeWhile isWs
        some ("◯ ".toList, after.drop ws.length, ws.getLastD ' ' = '\n')
      | _ => none
    else none
  | [] => none

/-- Pass 11: `/\n{3,}/g` to `\n\n`. -/
def mdStepNl (_ : Bool) (s : List Char) : Option (List Char × List Char × Bool) :=
  match s with
  | '\n' :: _ =>
    let run := s.takeWhile (fun d => d = '\n')
    if 3 ≤ run.length then some ('\n' :: ['\n'], s.drop run.length, true) else none
  | _ => none

/-- `markdownToPlainText` (bot.js 802-815): the eleven replacement passes
in source order.  `none` only on fuel exhaustion, shown impossible below. -/
def markdownToPlainText (s : List Char) : Option (List Char) :=
  (scanRepl mdStepCode (s.length + 1) true s).bind fun s1 =>
  (scanRepl mdStepInline (s1.length + 1) true s1).bind fun s2 =>
  (scanRepl mdStepBold (s2.length + 1) true s2).bind fun s3 =>
  (scanRepl (mdStepDelim '*') (s3.length + 1) true s3).bind fun s4 =>
  (scanRepl (mdStepDelim '_') (s4.length + 1) true s4).bind fun s5 =>
  (scanRepl mdStepLink (s5.length + 1) true s5).bind fun s6 =>
  (scanRepl (mdStepLineMark '#' true ("▶ ".toList)) (s6.length + 1) true s6).bind fun s7 =>
  (scanRepl (mdStepLineMark '>' false ("💬 ".toList)) (s7.length + 1) true s7).bind fun s8 =>
  (scanRepl (mdStepLineMark '*' false ("• ".toList)) (s8.length + 1) true s8).bind fun s9 =>
  (scanRepl mdStepNumbered (s9.length + 1) true s9).bind fun s10 =>
  scanRepl mdStepNl (s10.length + 1) true s10

/-! ## Basic lemmas -/

theorem startsWith_nil_iff {pat : List Char} : startsWith pat [] = true ↔ pat = [] := by
  cases pat <;> simp [startsWith]

theorem startsWith_eq_append {pat s : List Char} (h : startsWith pat s = true) :
    s = pat ++ s.drop pat.length := by
  induction pat generalizing s with
  | nil => simp
  | cons p ps ih =>
    cases s with
    | nil => simp [startsWith] at h
    | cons c cs =>
      simp only [startsWith, Bool.and_eq_true, decide_eq_true_eq] at h
      simpa [h.1] using ih h.2

theorem startsWith_length_le {pat s : List Char} (h : startsWith pat s = true) :
    pat.length ≤ s.length := by
  have := congrArg List.length (startsWith_eq_append h)
  simp at this
  omega

theorem startsWith_append {pat t : List Char} : startsWith pat (pat ++ t) = true := by
  induction pat with
  | nil => simp [startsWith]
  | cons p ps ih => simp [startsWith, ih]

theorem startsWith_extend {pat s t : List Char} (h : startsWith pat s = true) :
    startsWith pat (s ++ t) = true := by
  induction pat generalizing s with
  | nil => simp [startsWith]
  | cons p ps ih =>
    cases s with
    | nil => simp [startsWith_nil_iff.mp h, startsWith]
    | cons c cs =>
      simp only [startsWith, Bool.and_eq_true] at h ⊢
      exact ⟨h.1, ih h.2⟩

theorem containsSub_cons {pat : List Char} {c : Char} {cs : List Char}
    (h : containsSub pat cs = true) : containsSub pat (c :: cs) = true := by
  simp [containsSub, h]

theorem containsSub_of_startsWith {pat s : List Char} (h : startsWith pat s = true) :
    containsSub pat s = true := by
  cases s <;> simp [containsSub, h]

theorem containsSub_iff {pat s : List Char} :
    containsSub pat s = true ↔ ∃ a b, s = a ++ pat ++ b := by
  constructor
  · intro h
    induction s with
    | nil =>
      refine ⟨[], [], ?_⟩
      simp [containsSub] at h
      simp [startsWith_nil_iff.mp h]
    | cons c cs ih =>
      simp only [containsSub, Bool.or_eq_true] at h
      rcases h with h | h
      · exact ⟨[], (c :: cs).drop pat.length, by simpa using startsWith_eq_append h⟩
      · obtain ⟨a, b, rfl⟩ := ih h
        exact ⟨c :: a, b, rfl⟩
  · rintro ⟨a, b, rfl⟩
    induction a with
    | nil => exact containsSub_of_startsWith (by simpa using startsWith_append (t := b))
    | cons x xs ih => exact containsSub_cons ih

theorem dropWhile_eq_self_of {p : Char → Bool} {s : List Char}
    (h : ∀ c ∈ s, p c = false) : s.dropWhile p = s := by
  cases s with
  | nil => rfl
  | cons c cs => simp [List.dropWhile, h c (by simp)]

theorem trimWs_eq_self {s : List Char} (h : ∀ c ∈ s, isWs c = false) : trimWs s = s := by
  unfold trimWs
  rw [dropWhile_eq_self_of h, dropWhile_eq_self_of (by simpa using fun c hc => h c hc)]
  simp

theorem trimWs_eq_nil_iff {s : List Char} : trimWs s = [] ↔ ∀ c ∈ s, isWs c = true := by
  unfold trimWs
  constructor
  · intro h c hc
    have h2 : (s.dropWhile isWs).reverse.dropWhile isWs = [] := by
      simpa using congrArg List.reverse h
    have hall := List.dropWhile_eq_nil_iff.mp h2
    by_cases hmem : c ∈ s.dropWhile isWs
    · exact hall c (by simpa using hmem)
    · have hsplit := List.takeWhile_append_dropWhile (p := isWs) (l := s)
      have : c ∈ s.takeWhile isWs ++ s.dropWhile isWs := by rw [hsplit]; exact hc
      rcases List.mem_append.mp this with h3 | h3
      · exact List.mem_takeWhile_imp h3
      · exact absurd h3 hmem
  · intro h
    have : s.dropWhile isWs = [] := List.dropWhile_eq_nil_iff.mpr (fun c hc => h c hc)
    simp [this]

theorem mem_trimWs {a : Char} {s : List Char} (h : a ∈ trimWs s) : a ∈ s := by
  unfold trimWs at h
  simp only [List.mem_reverse] at h
  have h1 := (List.dropWhile_sublist (l := (s.dropWhile isWs).reverse) isWs).mem h
  simp only [List.mem_reverse] at h1
  exact (List.dropWhile_sublist (l := s) isWs).mem h1

theorem trimWs_length_le (s : List Char) : (trimWs s).length ≤ s.length := by
  unfold trimWs
  calc ((s.dropWhile isWs).reverse.dropWhile isWs).reverse.length
      ≤ (s.dropWhile isWs).reverse.length := by
        simpa using (List.dropWhile_sublist (l := (s.dropWhile isWs).reverse) isWs).length_le
    _ ≤ s.length := by simpa using (List.dropWhile_sublist (l := s) isWs).length_le

theorem count_dropWhile_ws {ch : Char} (hch : isWs ch = false) (s : List Char) :
    (s.dropWhile isWs).count ch = s.count ch := by
  conv_rhs => rw [← List.takeWhile_append_dropWhile (p := isWs) (l := s)]
  rw [List.count_append]
  have : (s.takeWhile isWs).count ch = 0 := by
    rw [List.count_eq_zero]
    intro hmem
    have := List.mem_takeWhile_imp hmem
    rw [this] at hch
    exact absurd hch (by simp)
  omega

theorem count_trimWs {ch : Char} (hch : isWs ch = false) (s : List Char) :
    (trimWs s).count ch = s.count ch := by
  unfold trimWs
  rw [List.count_reverse, count_dropWhile_ws hch, List.count_reverse,
    count_dropWhile_ws hch]

theorem count_eq_zero_of_trimWs_nil {ch : Char} (hch : isWs ch = false) {s : List Char}
    (h : trimWs s = []) : s.count ch = 0 := by
  rw [List.count_eq_zero]
  intro hmem
  have := trimWs_eq_nil_iff.mp h ch hmem
  rw [this] at hch
  exact absurd hch (by simp)

/-! ## Splitter lemmas -/

theorem countSum_nil {ch : Char} : countSum ch [] = 0 := rfl

theorem countSum_cons {ch : Char} {l : List Char} {ls : List (List Char)} :
    countSum ch (l :: ls) = l.count ch + countSum ch ls := by
  simp [countSum]

theorem countSum_append {ch : Char} {ls₁ ls₂ : List (List Char)} :
    countSum ch (ls₁ ++ ls₂) = countSum ch ls₁ + countSum ch ls₂ := by
  simp [countSum]

theorem splitOnSepAux_no_match {d : Char} {sep' : List Char} :
    ∀ (f : Nat) (cur s : List Char), d ∉ s →
      splitOnSepAux (d :: sep') f cur s = [cur.reverse ++ s]
  | 0, cur, s, _ => rfl
  | _ + 1, cur, [], _ => by simp [splitOnSepAux]
  | f + 1, cur, c :: cs, h => by
    have hd : d ≠ c := fun he => h (he ▸ List.mem_cons_self c cs)
    have hsw : startsWith (d :: sep') (c :: cs) = false := by
      simp [startsWith, hd]
    rw [splitOnSepAux, if_neg (by simp [hsw])]
    rw [splitOnSepAux_no_match f (c :: cur) cs (fun hm => h (List.mem_cons_of_mem c hm))]
    simp

theorem splitOnSepAux_count {ch : Char} {sep : List Char} (hsep : ch ∉ sep) :
    ∀ (f : Nat) (cur s : List Char),
      countSum ch (splitOnSepAux sep f cur s) = cur.count ch + s.count ch
  | 0, cur, s => by simp [splitOnSepAux, countSum]
  | _ + 1, cur, [] => by simp [splitOnSepAux, countSum]
  | f + 1, cur, c :: cs => by
    rw [splitOnSepAux]
    by_cases hsw : startsWith sep (c :: cs) = true
    · rw [if_pos hsw, countSum_cons, splitOnSepAux_count hsep f [] _]
      have hdec := startsWith_eq_append hsw
      have hcount : (c :: cs).count ch =
          sep.count ch + ((c :: cs).drop sep.length).count ch := by
        conv_lhs => rw [hdec]
        rw [List.count_append]
      rw [List.count_eq_zero.mpr hsep] at hcount
      simp only [List.count_nil, List.count_reverse]
      omega
    · rw [if_neg hsw, splitOnSepAux_count hsep f (c :: cur) cs]
      by_cases hc : c = ch
      · subst hc
        simp [List.count_cons_self]
        omega
      · rw [List.count_cons_of_ne (by exact fun he => hc he.symm),
          List.count_cons_of_ne (by exact fun he => hc he.symm)]

theorem splitOnSepAux_infix {sep : List Char} :
    ∀ (f : Nat) (cur s p : List Char), p ∈ splitOnSepAux sep f cur s →
      p <:+: cur.reverse ++ s
  | 0, cur, s, p, hp => by
    simp [splitOnSepAux] at hp
    exact hp ▸ List.infix_refl _
  | _ + 1, cur, [], p, hp => by
    simp [splitOnSepAux] at hp
    exact hp ▸ ⟨[], [], by simp⟩
  | f + 1, cur, c :: cs, p, hp => by
    rw [splitOnSepAux] at hp
    by_cases hsw : startsWith sep (c :: cs) = true
    · rw [if_pos hsw] at hp
      rcases List.mem_cons.mp hp with rfl | hp
      · exact ⟨[], c :: cs, by simp⟩
      · have h1 := splitOnSepAux_infix f [] ((c :: cs).drop sep.length) p hp
        simp only [List.reverse_nil, List.nil_append] at h1
        refine h1.trans ⟨cur.reverse ++ sep, [], ?_⟩
        conv_rhs => rw [startsWith_eq_append hsw]
        simp
    · rw [if_neg hsw] at hp
      have h1 := splitOnSepAux_infix f (c :: cur) cs p hp
      simpa using h1

theorem splitOnSepAux_single_free {d : Char} :
    ∀ (f : Nat) (cur s : List Char), s.length < f → d ∉ cur →
      ∀ p ∈ splitOnSepAux [d] f cur s, d ∉ p
  | 0, _, s, hf, _, _, _ => absurd hf (by omega)
  | _ + 1, cur, [], _, hcur, p, hp => by
    simp [splitOnSepAux] at hp
    subst hp
    simpa using hcur
  | f + 1, cur, c :: cs, hf, hcur, p, hp => by
    rw [splitOnSepAux] at hp
    by_cases hsw : startsWith [d] (c :: cs) = true
    · rw [if_pos hsw] at hp
      rcases List.mem_cons.mp hp with rfl | hp
      · simpa using hcur
      · exact splitOnSepAux_single_free f [] ((c :: cs).drop 1)
          (by simp at hf ⊢; omega) (by simp) p hp
    · rw [if_neg hsw] at hp
      have hdc : d ≠ c := by
        intro he
        apply hsw
        simp [startsWith, he]
      refine splitOnSepAux_single_free f (c :: cur) cs (by simp at hf ⊢; omega) ?_ p hp
      intro hmem
      rcases List.mem_cons.mp hmem with rfl | hmem
      · exact hdc rfl
      · exact hcur hmem

theorem sentSplitAux_no_punct :
    ∀ (f : Nat) (prev : Char) (cur s : List Char),
      (prev = '.' || prev = '!' || prev = '?') = false →
      (∀ c ∈ s, (c = '.' || c = '!' || c = '?') = false) →
      sentSplitAux f prev cur s = [cur.reverse ++ s]
  | 0, _, cur, s, _, _ => rfl
  | _ + 1, _, cur, [], _, _ => by simp [sentSplitAux]
  | f + 1, prev, cur, c :: cs, hprev, hs => by
    rw [sentSplitAux, if_neg (by simp_all)]
    rw [sentSplitAux_no_punct f c (c :: cur) cs (hs c (by simp))
      (fun x hx => hs x (by simp [hx]))]
    simp

theorem sentSplitAux_count {ch : Char} (hch : isWs ch = false) :
    ∀ (f : Nat) (prev : Char) (cur s : List Char),
      countSum ch (sentSplitAux f prev cur s) = cur.count ch + s.count ch
  | 0, _, cur, s => by simp [sentSplitAux, countSum]
  | _ + 1, _, cur, [] => by simp [sentSplitAux, countSum]
  | f + 1, prev, cur, c :: cs => by
    rw [sentSplitAux]
    by_cases hcond : ((prev = '.' || prev = '!' || prev = '?') && isWs c) = true
    · rw [if_pos hcond, countSum_cons, sentSplitAux_count hch f ' ' [] _]
      have hsplit : ((c :: cs).takeWhile isWs).count ch +
          ((c :: cs).dropWhile isWs).count ch = (c :: cs).count ch := by
        rw [← List.count_append, List.takeWhile_append_dropWhile]
      have htw : ((c :: cs).takeWhile isWs).count ch = 0 := by
        rw [List.count_eq_zero]
        intro hmem
        have := List.mem_takeWhile_imp hmem
        rw [this] at hch
        exact absurd hch (by simp)
      simp only [List.count_reverse, List.count_nil]
      omega
    · rw [if_neg hcond, sentSplitAux_count hch f c (c :: cur) cs]
      by_cases hc : c = ch
      · subst hc
        simp [List.count_cons_self]
        omega
      · rw [List.count_cons_of_ne (fun he => hc he.symm),
          List.count_cons_of_ne (fun he => hc he.symm)]

theorem sentSplitAux_infix :
    ∀ (f : Nat) (prev : Char) (cur s p : List Char), p ∈ sentSplitAux f prev cur s →
      p <:+: cur.reverse ++ s
  | 0, _, cur, s, p, hp => by
    simp [sentSplitAux] at hp
    exact hp ▸ List.infix_refl _
  | _ + 1, _, cur, [], p, hp => by
    simp [sentSplitAux] at hp
    exact hp ▸ ⟨[], [], by simp⟩
  | f + 1, prev, cur, c :: cs, p, hp => by
    rw [sentSplitAux] at hp
    by_cases hcond : ((prev = '.' || prev = '!' || prev = '?') && isWs c) = true
    · rw [if_pos hcond] at hp
      rcases List.mem_cons.mp hp with rfl | hp
      · exact ⟨[], c :: cs, by simp⟩
      · have h1 := sentSplitAux_infix f ' ' [] ((c :: cs).dropWhile isWs) p hp
        simp only [List.reverse_nil, List.nil_append] at h1
        refine h1.trans ?_
        have h2 : List.dropWhile isWs (c :: cs) <:+: (c :: cs) :=
          (List.dropWhile_suffix isWs).isInfix
        exact h2.trans ⟨cur.reverse, [], by simp⟩
    · rw [if_neg hcond] at hp
      have h1 := sentSplitAux_infix f c (c :: cur) cs p hp
      simpa using h1

theorem goodNN_take_one (l : List Char) : goodNN (l.take 1) := by
  unfold goodNN
  cases l with
  | nil => exact List.chain'_nil
  | cons c cs =>
    simp only [List.take_succ_cons, List.take_zero]
    exact List.chain'_singleton c

theorem splitOnSepAux_goodNN :
    ∀ (f : Nat) (cur s : List Char), s.length < f →
      goodNN (cur.reverse ++ s.take 1) →
      ∀ p ∈ splitOnSepAux ['\n', '\n'] f cur s, goodNN p
  | 0, _, s, hf, _, _, _ => absurd hf (by omega)
  | _ + 1, cur, [], _, hinv, p, hp => by
    simp [splitOnSepAux] at hp
    subst hp
    simp only [List.take_nil, List.append_nil] at hinv
    exact hinv
  | f + 1, cur, c :: cs, hf, hinv, p, hp => by
    simp only [List.take_succ_cons, List.take_zero] at hinv
    rw [splitOnSepAux] at hp
    by_cases hsw : startsWith ['\n', '\n'] (c :: cs) = true
    · rw [if_pos hsw] at hp
      rcases List.mem_cons.mp hp with rfl | hp
      · exact List.Chain'.left_of_append hinv
      · refine splitOnSepAux_goodNN f [] ((c :: cs).drop 2) ?_ ?_ p hp
        · simp at hf ⊢
          omega
        · simpa using goodNN_take_one (((c :: cs).drop 2))
    · rw [if_neg hsw] at hp
      refine splitOnSepAux_goodNN f (c :: cur) cs (by simpa using hf) ?_ p hp
      cases cs with
      | nil =>
        simp only [List.take_nil, List.append_nil, List.reverse_cons]
        exact hinv
      | cons d ds =>
        have hcd : ¬(c = '\n' ∧ d = '\n') := by
          rintro ⟨h1, h2⟩
          exact hsw (by simp [startsWith, h1, h2])
        simp only [List.reverse_cons, List.take_succ_cons, List.take_zero]
        unfold goodNN at hinv ⊢
        refine List.chain'_append.mpr ⟨hinv, List.chain'_singleton d, ?_⟩
        intro x hx y hy
        rw [List.getLast?_append_cons] at hx
        simp at hx hy
        subst hx
        subst hy
        exact hcd

/-! ## Budget lemmas: every chunk produced by the paragraph/sentence/word
tiers fits within 80% of the budget, so the validation pass and the
single-oversized-chunk force branch never fire. -/

theorem sentCutLoop_bounds {L : Nat} (hL : 2 ≤ L) :
    ∀ (f : Nat) (w : List Char), w.length < f →
      (∀ p ∈ (sentCutLoop L f w).1, 10 * p.length ≤ 6 * L) ∧
      10 * (sentCutLoop L f w).2.length ≤ 6 * L
  | 0, _, hf => absurd hf (by omega)
  | f + 1, w, hf => by
    rw [sentCutLoop]
    by_cases hc : 10 * w.length > 6 * L
    · rw [if_pos hc]
      have hcut1 : 1 ≤ 6 * L / 10 := by
        have : 10 ≤ 6 * L := by omega
        omega
      have hrec := sentCutLoop_bounds hL f (w.drop (6 * L / 10))
        (by simp; omega)
      refine ⟨?_, hrec.2⟩
      intro p hp
      rcases List.mem_cons.mp hp with rfl | hp
      · have : (w.take (6 * L / 10)).length ≤ 6 * L / 10 := by simp
        have h10 : 10 * (6 * L / 10) ≤ 6 * L := by omega
        omega
      · exact hrec.1 p hp
    · rw [if_neg hc]
      exact ⟨fun p hp => by simp at hp, by simp only; omega⟩

theorem splitSentenceGo_bounds {L : Nat} (hL : 2 ≤ L) :
    ∀ (ws : List (List Char)) (cur : List Char) (acc : List (List Char)),
      10 * cur.length ≤ 6 * L →
      (∀ c ∈ acc, 10 * c.length ≤ 6 * L) →
      ∀ c ∈ splitSentenceGo L cur acc ws, 10 * c.length ≤ 6 * L := by
  intro ws
  induction ws with
  | nil =>
    intro cur acc hcur hacc c hc
    rw [splitSentenceGo] at hc
    rcases List.mem_append.mp hc with h | h
    · exact hacc c h
    · by_cases ht : trimWs cur = []
      · simp [ht] at h
      · simp [ht] at h
        have := trimWs_length_le cur
        subst h
        omega
  | cons w ws ih =>
    intro cur acc hcur hacc c hc
    rw [splitSentenceGo] at hc
    by_cases hpot : 10 * (if cur = [] then w else cur ++ ' ' :: w).length ≤ 6 * L
    · rw [if_pos hpot] at hc
      exact ih _ _ hpot hacc c hc
    · rw [if_neg hpot] at hc
      have hacc1 : ∀ c ∈ acc ++ (if trimWs cur = [] then [] else [trimWs cur]),
          10 * c.length ≤ 6 * L := by
        intro c hc
        rcases List.mem_append.mp hc with h | h
        · exact hacc c h
        · by_cases ht : trimWs cur = []
          · simp [ht] at h
          · simp [ht] at h
            have := trimWs_length_le cur
            subst h
            omega
      by_cases hw : 10 * w.length > 6 * L
      · rw [if_pos hw] at hc
        have hloop := sentCutLoop_bounds hL (w.length + 1) w (by omega)
        refine ih _ _ hloop.2 ?_ c hc
        intro c hc
        rcases List.mem_append.mp hc with h | h
        · exact hacc1 c h
        · exact hloop.1 c h
      · rw [if_neg hw] at hc
        exact ih _ _ (by omega) hacc1 c hc

theorem splitSentence_bounds {L : Nat} (hL : 2 ≤ L) (s : List Char) :
    ∀ c ∈ splitSentence L s, 10 * c.length ≤ 6 * L := by
  intro c hc
  exact splitSentenceGo_bounds hL _ [] [] (by simp) (by simp) c hc

theorem splitParagraphGo_bounds {L : Nat} (hL : 2 ≤ L) :
    ∀ (ss : List (List Char)) (cur : List Char) (acc : List (List Char)),
      10 * cur.length ≤ 7 * L →
      (∀ c ∈ acc, 10 * c.length ≤ 7 * L) →
      ∀ c ∈ splitParagraphGo L cur acc ss, 10 * c.length ≤ 7 * L := by
  intro ss
  induction ss with
  | nil =>
    intro cur acc hcur hacc c hc
    rw [splitParagraphGo] at hc
    rcases List.mem_append.mp hc with h | h
    · exact hacc c h
    · by_cases ht : trimWs cur = []
      · simp [ht] at h
      · simp [ht] at h
        have := trimWs_length_le cur
        subst h
        omega
  | cons s ss ih =>
    intro cur acc hcur hacc c hc
    rw [splitParagraphGo] at hc
    by_cases hpot : 10 * (if cur = [] then s else cur ++ ' ' :: s).length ≤ 7 * L
    · rw [if_pos hpot] at hc
      exact ih _ _ hpot hacc c hc
    · rw [if_neg hpot] at hc
      have hacc1 : ∀ c ∈ acc ++ (if trimWs cur = [] then [] else [trimWs cur]),
          10 * c.length ≤ 7 * L := by
        intro c hc
        rcases List.mem_append.mp hc with h | h
        · exact hacc c h
        · by_cases ht : trimWs cur = []
          · simp [ht] at h
          · simp [ht] at h
            have := trimWs_length_le cur
            subst h
            omega
      by_cases hs : 10 * s.length > 5 * L
      · rw [if_pos hs] at hc
        refine ih _ _ (by simp) ?_ c hc
        intro c hc
        rcases List.mem_append.mp hc with h | h
        · exact hacc1 c h
        · have := splitSentence_bounds hL s c h
          omega
      · rw [if_neg hs] at hc
        exact ih _ _ (by omega) hacc1 c hc

theorem splitParagraph_bounds {L : Nat} (hL : 2 ≤ L) (p : List Char) :
    ∀ c ∈ splitParagraph L p, 10 * c.length ≤ 7 * L := by
  intro c hc
  exact splitParagraphGo_bounds hL _ [] [] (by simp) (by simp) c hc

theorem splitLongGo_bounds {L : Nat} (hL : 2 ≤ L) :
    ∀ (ps : List (List Char)) (cur : List Char) (acc : List (List Char)),
      10 * cur.length ≤ 8 * L →
      (∀ c ∈ acc, 10 * c.length ≤ 8 * L) →
      ∀ c ∈ splitLongGo L cur acc ps, 10 * c.length ≤ 8 * L := by
  intro ps
  induction ps with
  | nil =>
    intro cur acc hcur hacc c hc
    rw [splitLongGo] at hc
    rcases List.mem_append.mp hc with h | h
    · exact hacc c h
    · by_cases ht : trimWs cur = []
      · simp [ht] at h
      · simp [ht] at h
        have := trimWs_length_le cur
        subst h
        omega
  | cons p ps ih =>
    intro cur acc hcur hacc c hc
    rw [splitLongGo] at hc
    by_cases hpot : 10 * (if cur = [] then p else cur ++ '\n' :: '\n' :: p).length ≤ 8 * L
    · rw [if_pos hpot] at hc
      exact ih _ _ hpot hacc c hc
    · rw [if_neg hpot] at hc
      have hacc1 : ∀ c ∈ acc ++ (if trimWs cur = [] then [] else [trimWs cur]),
          10 * c.length ≤ 8 * L := by
        intro c hc
        rcases List.mem_append.mp hc with h | h
        · exact hacc c h
        · by_cases ht : trimWs cur = []
          · simp [ht] at h
          · simp [ht] at h
            have := trimWs_length_le cur
            subst h
            omega
      by_cases hp : 10 * p.length > 6 * L
      · rw [if_pos hp] at hc
        refine ih _ _ (by simp) ?_ c hc
        intro c hc
        rcases List.mem_append.mp hc with h | h
        · exact hacc1 c h
        · have := splitParagraph_bounds hL p c h
          omega
      · rw [if_neg hp] at hc
        exact ih _ _ (by omega) hacc1 c hc

theorem mainChunks_bounds {text : List Char} {L : Nat} (hL : 2 ≤ L) :
    ∀ c ∈ mainChunks text L, 10 * c.length ≤ 8 * L := by
  intro c hc
  exact splitLongGo_bounds hL _ [] [] (by simp) (by simp) c hc

theorem mainChunks_le {text : List Char} {L : Nat} (hL : 2 ≤ L) :
    ∀ c ∈ mainChunks text L, c.length ≤ L := by
  intro c hc
  have := mainChunks_bounds hL c hc
  omega

/-- Under `2 ≤ L` the single-oversized-chunk force branch cannot fire. -/
theorem mainChunks_no_force {text : List Char} {L : Nat} (hL : 2 ≤ L) :
    ¬((mainChunks text L).length = 1 ∧ L < ((mainChunks text L).headD []).length) := by
  rintro ⟨h1, h2⟩
  match hm : mainChunks text L, h1 with
  | [c], _ =>
    have : c ∈ mainChunks text L := by rw [hm]; simp
    have := mainChunks_le hL c this
    rw [hm] at h2
    simp at h2
    omega

theorem flatMap_validate_eq {L : Nat} {cs : List (List Char)}
    (h : ∀ c ∈ cs, ¬ L < c.length) :
    cs.flatMap (fun c => if L < c.length then forceSplit L c else [c]) = cs := by
  induction cs with
  | nil => rfl
  | cons c cs ih =>
    rw [List.flatMap_cons, if_neg (h c (by simp)), ih (fun c hc => h c (by simp [hc]))]
    rfl

/-- For `2 ≤ L` and an over-budget input, `splitLongMessage` is: split into
`mainChunks`, restore placeholders in each, and fall back to `[text]` if
everything collapsed to whitespace. -/
theorem splitLongMessage_eq {text : List Char} {L : Nat} (hL : 2 ≤ L)
    (hlen : ¬ text.length ≤ L) :
    splitLongMessage text L =
      (if ((mainChunks text L).map
            (restoreTables (extract text).2.1 (extract text).2.2)).isEmpty
        then [text]
        else (mainChunks text L).map
            (restoreTables (extract text).2.1 (extract text).2.2)) := by
  rw [splitLongMessage]
  rw [if_neg hlen, if_neg (mainChunks_no_force hL)]
  rw [flatMap_validate_eq (fun c hc => by have := mainChunks_le hL c hc; omega)]

/-- Under `2 ≤ L` the pre-restoration chunks coincide with `mainChunks`
on the over-budget path. -/
theorem preChunks_eq {text : List Char} {L : Nat} (hL : 2 ≤ L)
    (hlen : ¬ text.length ≤ L) : preChunks text L = mainChunks text L := by
  rw [preChunks, if_neg hlen, if_neg (mainChunks_no_force hL)]
  rw [flatMap_validate_eq (fun c hc => by have := mainChunks_le hL c hc; omega)]

/-- Every pre-restoration chunk fits the budget. -/
theorem preChunks_le {text : List Char} {L : Nat} (hL : 2 ≤ L) :
    ∀ p ∈ preChunks text L, p.length ≤ L := by
  intro p hp
  by_cases hlen : text.length ≤ L
  · rw [preChunks, if_pos hlen] at hp
    simp at hp
    subst hp
    exact hlen
  · rw [preChunks_eq hL hlen] at hp
    exact mainChunks_le hL p hp

/-! ## Count preservation: no tier drops or duplicates a non-whitespace
character. -/

theorem countSum_flatten {ch : Char} (ls : List (List Char)) :
    ls.flatten.count ch = countSum ch ls := by
  induction ls with
  | nil => simp [countSum]
  | cons l ls ih => simp [countSum, List.count_append] at ih ⊢; omega

theorem count_trim_opt {ch : Char} (hch : isWs ch = false) (cur : List Char) :
    countSum ch (if trimWs cur = [] then ([] : List (List Char)) else [trimWs cur]) =
      cur.count ch := by
  by_cases ht : trimWs cur = []
  · rw [if_pos ht]
    rw [countSum_nil, count_eq_zero_of_trimWs_nil hch ht]
  · rw [if_neg ht, countSum_cons, countSum_nil, count_trimWs hch]
    omega

theorem count_space_cons {ch : Char} (hch : isWs ch = false) (w : List Char) :
    (' ' :: w).count ch = w.count ch := by
  have hne : ch ≠ ' ' := by
    intro he
    rw [he] at hch
    simp [isWs] at hch
  rw [List.count_cons_of_ne hne]

theorem count_pot_space {ch : Char} (hch : isWs ch = false) (cur w : List Char) :
    (if cur = [] then w else cur ++ ' ' :: w).count ch = cur.count ch + w.count ch := by
  by_cases hcur : cur = []
  · simp [hcur]
  · rw [if_neg hcur, List.count_append, count_space_cons hch]

theorem sentCutLoop_count {ch : Char} {L : Nat} :
    ∀ (f : Nat) (w : List Char),
      countSum ch (sentCutLoop L f w).1 + (sentCutLoop L f w).2.count ch = w.count ch
  | 0, w => by simp [sentCutLoop, countSum]
  | f + 1, w => by
    rw [sentCutLoop]
    by_cases hc : 10 * w.length > 6 * L
    · rw [if_pos hc]
      simp only [countSum_cons]
      have hrec := @sentCutLoop_count ch L f (w.drop (6 * L / 10))
      have hsplit : (w.take (6 * L / 10)).count ch + (w.drop (6 * L / 10)).count ch =
          w.count ch := by
        rw [← List.count_append, List.take_append_drop]
      omega
    · rw [if_neg hc]
      simp [countSum]

theorem splitSentenceGo_count {ch : Char} (hch : isWs ch = false) {L : Nat} :
    ∀ (ws : List (List Char)) (cur : List Char) (acc : List (List Char)),
      countSum ch (splitSentenceGo L cur acc ws) =
        countSum ch acc + cur.count ch + countSum ch ws := by
  intro ws
  induction ws with
  | nil =>
    intro cur acc
    rw [splitSentenceGo, countSum_append, count_trim_opt hch, countSum_nil]
    omega
  | cons w ws ih =>
    intro cur acc
    rw [splitSentenceGo]
    by_cases hpot : 10 * (if cur = [] then w else cur ++ ' ' :: w).length ≤ 6 * L
    · rw [if_pos hpot, ih, count_pot_space hch, countSum_cons]
      omega
    · rw [if_neg hpot]
      by_cases hw : 10 * w.length > 6 * L
      · rw [if_pos hw, ih]
        have hloop := @sentCutLoop_count ch L (w.length + 1) w
        rw [countSum_append, countSum_append, count_trim_opt hch, countSum_cons]
        omega
      · rw [if_neg hw, ih, countSum_append, count_trim_opt hch, countSum_cons]
        omega

theorem splitSentence_count {ch : Char} (hch : isWs ch = false) {L : Nat}
    (s : List Char) : countSum ch (splitSentence L s) = s.count ch := by
  rw [splitSentence, splitSentenceGo_count hch]
  rw [countSum_nil, List.count_nil]
  have := @splitOnSepAux_count ch [' ']
    (by
      intro hmem
      simp at hmem
      rw [hmem] at hch
      simp [isWs] at hch)
    (s.length + 1) [] s
  simpa [splitOnSep] using this

theorem splitParagraphGo_count {ch : Char} (hch : isWs ch = false) {L : Nat} :
    ∀ (ss : List (List Char)) (cur : List Char) (acc : List (List Char)),
      countSum ch (splitParagraphGo L cur acc ss) =
        countSum ch acc + cur.count ch + countSum ch ss := by
  intro ss
  induction ss with
  | nil =>
    intro cur acc
    rw [splitParagraphGo, countSum_append, count_trim_opt hch, countSum_nil]
    omega
  | cons s ss ih =>
    intro cur acc
    rw [splitParagraphGo]
    by_cases hpot : 10 * (if cur = [] then s else cur ++ ' ' :: s).length ≤ 7 * L
    · rw [if_pos hpot, ih, count_pot_space hch, countSum_cons]
      omega
    · rw [if_neg hpot]
      by_cases hs : 10 * s.length > 5 * L
      · rw [if_pos hs, ih]
        rw [countSum_append, countSum_append, count_trim_opt hch, countSum_cons,
          splitSentence_count hch]
        simp
        omega
      · rw [if_neg hs, ih, countSum_append, count_trim_opt hch, countSum_cons]
        omega

theorem splitParagraph_count {ch : Char} (hch : isWs ch = false) {L : Nat}
    (p : List Char) : countSum ch (splitParagraph L p) = p.count ch := by
  rw [splitParagraph, splitParagraphGo_count hch]
  rw [countSum_nil, List.count_nil]
  have := sentSplitAux_count hch (p.length + 1) ' ' [] p
  simpa [sentSplit] using this

theorem count_nn_cons {ch : Char} (hch : isWs ch = false) (p : List Char) :
    ('\n' :: '\n' :: p).count ch = p.count ch := by
  have hne : ch ≠ '\n' := by
    intro he
    rw [he] at hch
    simp [isWs] at hch
  rw [List.count_cons_of_ne hne, List.count_cons_of_ne hne]

theorem count_pot_nn {ch : Char} (hch : isWs ch = false) (cur p : List Char) :
    (if cur = [] then p else cur ++ '\n' :: '\n' :: p).count ch =
      cur.count ch + p.count ch := by
  by_cases hcur : cur = []
  · simp [hcur]
  · rw [if_neg hcur, List.count_append, count_nn_cons hch]

theorem splitLongGo_count {ch : Char} (hch : isWs ch = false) {L : Nat} :
    ∀ (ps : List (List Char)) (cur : List Char) (acc : List (List Char)),
      countSum ch (splitLongGo L cur acc ps) =
        countSum ch acc + cur.count ch + countSum ch ps := by
  intro ps
  induction ps with
  | nil =>
    intro cur acc
    rw [splitLongGo, countSum_append, count_trim_opt hch, countSum_nil]
    omega
  | cons p ps ih =>
    intro cur acc
    rw [splitLongGo]
    by_cases hpot : 10 * (if cur = [] then p else cur ++ '\n' :: '\n' :: p).length ≤ 8 * L
    · rw [if_pos hpot, ih, count_pot_nn hch, countSum_cons]
      omega
    · rw [if_neg hpot]
      by_cases hp : 10 * p.length > 6 * L
      · rw [if_pos hp, ih]
        rw [countSum_append, countSum_append, count_trim_opt hch, countSum_cons,
          splitParagraph_count hch]
        simp
        omega
      · rw [if_neg hp, ih, countSum_append, count_trim_opt hch, countSum_cons]
        omega

theorem mainChunks_count {ch : Char} (hch : isWs ch = false) {text : List Char}
    {L : Nat} : countSum ch (mainChunks text L) = (extract text).1.count ch := by
  rw [mainChunks, splitLongGo_count hch]
  rw [countSum_nil, List.count_nil]
  have := @splitOnSepAux_count ch ['\n', '\n']
    (by
      intro hmem
      simp at hmem
      rw [hmem] at hch
      simp [isWs] at hch)
    ((extract text).1.length + 1) [] (extract text).1
  simpa [splitOnSep] using this

/-! ## Extraction is the identity on backtick-free text -/

theorem fenceSplitAux_no_bt :
    ∀ (f : Nat) (cur s : List Char), (∀ c ∈ s, c ≠ '`') →
      fenceSplitAux f cur s = ([cur.reverse ++ s], [])
  | 0, cur, s, _ => rfl
  | _ + 1, cur, [], _ => by simp [fenceSplitAux]
  | f + 1, cur, c :: cs, h => by
    have hc : c ≠ '`' := h c (by simp)
    rw [fenceSplitAux, if_neg (by simp [bt3, startsWith, hc]; intro he; exact absurd he.symm hc)]
    rw [fenceSplitAux_no_bt f (c :: cur) cs (fun x hx => h x (by simp [hx]))]
    simp

theorem inlineSplitAux_no_bt :
    ∀ (f : Nat) (cur s : List Char), (∀ c ∈ s, c ≠ '`') →
      inlineSplitAux f cur s = ([cur.reverse ++ s], [])
  | 0, cur, s, _ => rfl
  | _ + 1, cur, [], _ => by simp [inlineSplitAux]
  | f + 1, cur, c :: cs, h => by
    have hc : c ≠ '`' := h c (by simp)
    rw [inlineSplitAux, if_neg (by simpa using hc)]
    rw [inlineSplitAux_no_bt f (c :: cur) cs (fun x hx => h x (by simp [hx]))]
    simp

theorem extract_no_bt {t : List Char} (h : ∀ c ∈ t, c ≠ '`') :
    extract t = (t, [], []) := by
  rw [extract]
  rw [show fenceSplit t = ([t], []) from by
    rw [fenceSplit, fenceSplitAux_no_bt _ [] t h]; simp]
  simp only [joinWithPh]
  rw [show inlineSplit t = ([t], []) from by
    rw [inlineSplit, inlineSplitAux_no_bt _ [] t h]; simp]
  simp [joinWithPh]

theorem restoreTables_nil (c : List Char) : restoreTables [] [] c = c := by
  simp [restoreTables]

/-- Concatenation fidelity for backtick-free inputs: every non-whitespace
character keeps its multiplicity. -/
theorem splitLongMessage_count {ch : Char} (hch : isWs ch = false) {text : List Char}
    {L : Nat} (hL : 2 ≤ L) (hbt : ∀ c ∈ text, c ≠ '`') :
    (splitLongMessage text L).flatten.count ch = text.count ch := by
  by_cases hlen : text.length ≤ L
  · rw [splitLongMessage, if_pos hlen]
    simp
  · have hmap : (mainChunks text L).map
        (restoreTables (extract text).2.1 (extract text).2.2) = mainChunks text L := by
      rw [extract_no_bt hbt]
      have hid : restoreTables [] [] = id := funext restoreTables_nil
      rw [hid, List.map_id]
    rw [splitLongMessage_eq hL hlen, hmap]
    by_cases he : (mainChunks text L).isEmpty
    · rw [if_pos he]
      simp
    · rw [if_neg he, countSum_flatten, mainChunks_count hch, extract_no_bt hbt]

theorem splitLongMessage_ne_nil {text : List Char} {L : Nat} (hL : 2 ≤ L) :
    splitLongMessage text L ≠ [] := by
  by_cases hlen : text.length ≤ L
  · rw [splitLongMessage, if_pos hlen]
    simp
  · rw [splitLongMessage_eq hL hlen]
    by_cases he : ((mainChunks text L).map
        (restoreTables (extract text).2.1 (extract text).2.2)).isEmpty
    · rw [if_pos he]
      simp
    · rw [if_neg he]
      intro hnil
      rw [hnil] at he
      simp at he

/-! ## Whitespace-only inputs (spaces and newlines) -/

theorem word_short {w : List Char} (hsub : ∀ c ∈ w, c = ' ' ∨ c = '\n')
    (hsp : ' ' ∉ w) (hnn : goodNN w) : w.length ≤ 1 := by
  match w, hsub, hsp, hnn with
  | [], _, _, _ => simp
  | [c], _, _, _ => simp
  | c1 :: c2 :: rest, hsub, hsp, hnn =>
    have h1 : c1 = '\n' := by
      rcases hsub c1 (by simp) with h | h
      · exact absurd (h ▸ List.mem_cons_self c1 _) hsp
      · exact h
    have h2 : c2 = '\n' := by
      rcases hsub c2 (by simp) with h | h
      · exact absurd (by simp [h]) hsp
      · exact h
    have := (List.chain'_cons.mp hnn).1
    exact absurd ⟨h1, h2⟩ this

theorem splitSentenceGo_ws {L : Nat} (hL : 2 ≤ L) :
    ∀ (ws : List (List Char)) (cur : List Char),
      (∀ w ∈ ws, w.length ≤ 1 ∧ ∀ c ∈ w, isWs c = true) →
      (∀ c ∈ cur, isWs c = true) →
      splitSentenceGo L cur [] ws = [] := by
  intro ws
  induction ws with
  | nil =>
    intro cur _ hcur
    rw [splitSentenceGo, if_pos (trimWs_eq_nil_iff.mpr hcur)]
    rfl
  | cons w ws ih =>
    intro cur hws hcur
    have hw := hws w (by simp)
    have hws' : ∀ w ∈ ws, w.length ≤ 1 ∧ ∀ c ∈ w, isWs c = true :=
      fun w hw => hws w (by simp [hw])
    rw [splitSentenceGo]
    by_cases hpot : 10 * (if cur = [] then w else cur ++ ' ' :: w).length ≤ 6 * L
    · rw [if_pos hpot]
      refine ih _ hws' ?_
      by_cases hc : cur = []
      · simpa [hc] using hw.2
      · rw [if_neg hc]
        intro c hc2
        rcases List.mem_append.mp hc2 with h | h
        · exact hcur c h
        · rcases List.mem_cons.mp h with rfl | h
          · simp [isWs]
          · exact hw.2 c h
    · rw [if_neg hpot, if_pos (trimWs_eq_nil_iff.mpr hcur)]
      rw [if_neg (by omega : ¬ 10 * w.length > 6 * L)]
      exact ih _ hws' hw.2

theorem splitSentence_ws {L : Nat} (hL : 2 ≤ L) {p : List Char}
    (hsub : ∀ c ∈ p, c = ' ' ∨ c = '\n') (hnn : goodNN p) :
    splitSentence L p = [] := by
  rw [splitSentence]
  refine splitSentenceGo_ws hL _ [] ?_ (by simp)
  intro w hw
  have hw' : w ∈ splitOnSepAux [' '] (p.length + 1) [] p := by
    simpa [splitOnSep] using hw
  have hinf : w <:+: p := by
    simpa using splitOnSepAux_infix (p.length + 1) [] p w hw'
  have hsub' : ∀ c ∈ w, c = ' ' ∨ c = '\n' :=
    fun c hc => hsub c (hinf.sublist.subset hc)
  have hsp : ' ' ∉ w :=
    splitOnSepAux_single_free (p.length + 1) [] p (by omega) (by simp) w hw'
  have hnnw : goodNN w := List.Chain'.infix hnn hinf
  refine ⟨word_short hsub' hsp hnnw, ?_⟩
  intro c hc
  rcases hsub' c hc with rfl | rfl <;> simp [isWs]

theorem splitParagraph_ws {L : Nat} (hL : 2 ≤ L) {p : List Char}
    (hsub : ∀ c ∈ p, c = ' ' ∨ c = '\n') (hnn : goodNN p) :
    splitParagraph L p = [] := by
  have hptrim : trimWs p = [] := by
    refine trimWs_eq_nil_iff.mpr ?_
    intro c hc
    rcases hsub c hc with rfl | rfl <;> simp [isWs]
  rw [splitParagraph]
  have hsent : sentSplit p = [p] := by
    rw [sentSplit, sentSplitAux_no_punct]
    · simp
    · rfl
    · intro c hc
      rcases hsub c hc with rfl | rfl <;> rfl
  rw [hsent, splitParagraphGo]
  rw [if_pos (rfl : ([] : List Char) = [])]
  by_cases hpot : 10 * p.length ≤ 7 * L
  · rw [if_pos hpot, splitParagraphGo, if_pos hptrim]
    rfl
  · rw [if_neg hpot]
    rw [if_pos (show trimWs ([] : List Char) = [] from rfl)]
    rw [if_pos (show 10 * p.length > 5 * L by omega)]
    rw [splitSentence_ws hL hsub hnn, splitParagraphGo]
    rw [if_pos (show trimWs ([] : List Char) = [] from rfl)]
    rfl

theorem splitLongGo_ws {L : Nat} (hL : 2 ≤ L) :
    ∀ (ps : List (List Char)) (cur : List Char),
      (∀ p ∈ ps, (∀ c ∈ p, c = ' ' ∨ c = '\n') ∧ goodNN p) →
      (∀ c ∈ cur, c = ' ' ∨ c = '\n') →
      splitLongGo L cur [] ps = [] := by
  intro ps
  induction ps with
  | nil =>
    intro cur _ hcur
    rw [splitLongGo, if_pos (trimWs_eq_nil_iff.mpr
      (fun c hc => by rcases hcur c hc with rfl | rfl <;> simp [isWs]))]
    rfl
  | cons p ps ih =>
    intro cur hps hcur
    have hp := hps p (by simp)
    have hps' : ∀ p ∈ ps, (∀ c ∈ p, c = ' ' ∨ c = '\n') ∧ goodNN p :=
      fun p hp => hps p (by simp [hp])
    rw [splitLongGo]
    by_cases hpot : 10 * (if cur = [] then p else cur ++ '\n' :: '\n' :: p).length ≤ 8 * L
    · rw [if_pos hpot]
      refine ih _ hps' ?_
      by_cases hc : cur = []
      · simpa [hc] using hp.1
      · rw [if_neg hc]
        intro c hc2
        rcases List.mem_append.mp hc2 with h | h
        · exact hcur c h
        · rcases List.mem_cons.mp h with rfl | h
          · simp
          · rcases List.mem_cons.mp h with rfl | h
            · simp
            · exact hp.1 c h
    · rw [if_neg hpot, if_pos (trimWs_eq_nil_iff.mpr
        (fun c hc => by rcases hcur c hc with rfl | rfl <;> simp [isWs]))]
      by_cases hlong : 10 * p.length > 6 * L
      · rw [if_pos hlong, splitParagraph_ws hL hp.1 hp.2]
        exact ih _ hps' (by simp)
      · rw [if_neg hlong]
        exact ih _ hps' hp.1

theorem mainChunks_ws {text : List Char} {L : Nat} (hL : 2 ≤ L)
    (hsub : ∀ c ∈ text, c = ' ' ∨ c = '\n') : mainChunks text L = [] := by
  have hbt : ∀ c ∈ text, c ≠ '`' := by
    intro c hc
    rcases hsub c hc with rfl | rfl <;> simp
  rw [mainChunks, extract_no_bt hbt]
  refine splitLongGo_ws hL _ [] ?_ (by simp)
  intro p hp
  have hp' : p ∈ splitOnSepAux ['\n', '\n'] (text.length + 1) [] text := by
    simpa [splitOnSep] using hp
  have hinf : p <:+: text := by
    simpa using splitOnSepAux_infix (text.length + 1) [] text p hp'
  refine ⟨fun c hc => hsub c (hinf.sublist.subset hc), ?_⟩
  exact splitOnSepAux_goodNN (text.length + 1) [] text (by omega)
    (by simpa using goodNN_take_one text) p hp'

/-- A whitespace-only over-budget input falls back to `[text]`. -/
theorem splitLongMessage_ws {text : List Char} {L : Nat} (hL : 2 ≤ L)
    (hsub : ∀ c ∈ text, c = ' ' ∨ c = '\n') (hlen : L < text.length) :
    splitLongMessage text L = [text] := by
  rw [splitLongMessage_eq hL (by omega), mainChunks_ws hL hsub]
  simp


/-! ## Evaluation of `splitLongMessage` on a 10,000-character unbroken
line (spec example scenario 3). -/

theorem replicate_a_not_mem {n : Nat} {c : Char} (hc : c ≠ 'a') :
    c ∉ List.replicate n 'a' := by
  intro h
  exact hc (List.eq_of_mem_replicate h)

theorem trimWs_replicate_a (n : Nat) :
    trimWs (List.replicate n 'a') = List.replicate n 'a' :=
  trimWs_eq_self (fun c hc => by rw [List.eq_of_mem_replicate hc]; rfl)

theorem sentCutLoop_replicate_base :
    ∀ (f n : Nat), n ≤ 1200 →
      sentCutLoop 2000 f (List.replicate n 'a') = ([], List.replicate n 'a')
  | 0, n, _ => rfl
  | f + 1, n, h => by
    rw [sentCutLoop, if_neg (show ¬ 10 * (List.replicate n 'a').length > 6 * 2000 from by
      simp only [List.length_replicate]
      omega)]

theorem sentCutLoop_replicate_big :
    ∀ (k n f : Nat), n = 1200 * k + 400 → n < f →
      sentCutLoop 2000 f (List.replicate n 'a') =
        (List.replicate k (List.replicate 1200 'a'), List.replicate 400 'a') := by
  intro k
  induction k with
  | zero =>
    intro n f hn _
    subst hn
    rw [show (1200 * 0 + 400 : Nat) = 400 from by norm_num, List.replicate_zero]
    exact sentCutLoop_replicate_base f 400 (by omega)
  | succ k ih =>
    intro n f hn hf
    match f, hf with
    | f + 1, hf =>
      rw [sentCutLoop, if_pos (show 10 * (List.replicate n 'a').length > 6 * 2000 from by
        simp only [List.length_replicate]
        omega)]
      have h1 : (6 * 2000 / 10 : Nat) = 1200 := by norm_num
      rw [h1, List.take_replicate, List.drop_replicate]
      rw [show min 1200 n = 1200 from by omega]
      rw [ih (n - 1200) f (by omega) (by omega)]
      show (List.replicate 1200 'a' :: List.replicate k (List.replicate 1200 'a'),
        List.replicate 400 'a') =
        (List.replicate (k + 1) (List.replicate 1200 'a'), List.replicate 400 'a')
      rw [List.replicate_succ (List.replicate 1200 'a') k]

theorem c2_sentence :
    splitSentence 2000 (List.replicate 10000 'a') =
      List.replicate 8 (List.replicate 1200 'a') ++ [List.replicate 400 'a'] := by
  rw [splitSentence]
  rw [show splitOnSep [' '] (List.replicate 10000 'a') = [List.replicate 10000 'a'] from by
    rw [splitOnSep]
    exact splitOnSepAux_no_match _ [] _ (replicate_a_not_mem (by decide))]
  rw [splitSentenceGo]
  rw [if_pos (rfl : ([] : List Char) = [])]
  rw [if_neg (show ¬ 10 * (List.replicate 10000 'a').length ≤ 6 * 2000 from by
    simp only [List.length_replicate]
    omega)]
  rw [if_pos (show trimWs ([] : List Char) = [] from rfl)]
  rw [if_pos (show 10 * (List.replicate 10000 'a').length > 6 * 2000 from by
    simp only [List.length_replicate]
    omega)]
  rw [show (List.replicate 10000 'a').length + 1 = 10001 from by
    norm_num [List.length_replicate]]
  rw [sentCutLoop_replicate_big 8 10000 10001 (by norm_num) (by norm_num)]
  rw [splitSentenceGo]
  rw [if_neg (show ¬ trimWs (List.replicate 400 'a') = [] from by
    rw [trimWs_replicate_a]
    intro h
    have := congrArg List.length h
    simp only [List.length_replicate, List.length_nil] at this
    omega)]
  rw [trimWs_replicate_a]
  simp only [List.nil_append]

theorem c2_paragraph :
    splitParagraph 2000 (List.replicate 10000 'a') =
      List.replicate 8 (List.replicate 1200 'a') ++ [List.replicate 400 'a'] := by
  rw [splitParagraph]
  rw [show sentSplit (List.replicate 10000 'a') = [List.replicate 10000 'a'] from by
    rw [sentSplit]
    exact sentSplitAux_no_punct _ ' ' [] _ (by decide)
      (fun c hc => by rw [List.eq_of_mem_replicate hc]; decide)]
  rw [splitParagraphGo]
  rw [if_pos (rfl : ([] : List Char) = [])]
  rw [if_neg (show ¬ 10 * (List.replicate 10000 'a').length ≤ 7 * 2000 from by
    simp only [List.length_replicate]
    omega)]
  rw [if_pos (show trimWs ([] : List Char) = [] from rfl)]
  rw [if_pos (show 10 * (List.replicate 10000 'a').length > 5 * 2000 from by
    simp only [List.length_replicate]
    omega)]
  rw [c2_sentence, splitParagraphGo]
  rw [if_pos (show trimWs ([] : List Char) = [] from rfl)]
  simp only [List.nil_append, List.append_nil, List.append_assoc]

theorem c2_mainChunks :
    mainChunks (List.replicate 10000 'a') 2000 =
      List.replicate 8 (List.replicate 1200 'a') ++ [List.replicate 400 'a'] := by
  rw [mainChunks, extract_no_bt (fun c hc => by rw [List.eq_of_mem_replicate hc]; decide)]
  rw [show splitOnSep ['\n', '\n'] ((List.replicate 10000 'a', ([] : List (List Char)),
      ([] : List (List Char))).1) = [List.replicate 10000 'a'] from by
    rw [splitOnSep]
    exact splitOnSepAux_no_match _ [] _ (replicate_a_not_mem (by decide))]
  rw [splitLongGo]
  rw [if_pos (rfl : ([] : List Char) = [])]
  rw [if_neg (show ¬ 10 * (List.replicate 10000 'a').length ≤ 8 * 2000 from by
    simp only [List.length_replicate]
    omega)]
  rw [if_pos (show trimWs ([] : List Char) = [] from rfl)]
  rw [if_pos (show 10 * (List.replicate 10000 'a').length > 6 * 2000 from by
    simp only [List.length_replicate]
    omega)]
  rw [c2_paragraph, splitLongGo]
  rw [if_pos (show trimWs ([] : List Char) = [] from rfl)]
  simp only [List.nil_append, List.append_nil, List.append_assoc]

theorem c2_eval :
    splitLongMessage (List.replicate 10000 'a') 2000 =
      List.replicate 8 (List.replicate 1200 'a') ++ [List.replicate 400 'a'] := by
  have hbt : ∀ c ∈ List.replicate 10000 'a', c ≠ '`' :=
    fun c hc => by rw [List.eq_of_mem_replicate hc]; decide
  have hmap : (mainChunks (List.replicate 10000 'a') 2000).map
      (restoreTables (extract (List.replicate 10000 'a')).2.1
        (extract (List.replicate 10000 'a')).2.2) =
      mainChunks (List.replicate 10000 'a') 2000 := by
    rw [extract_no_bt hbt]
    have hid : restoreTables [] [] = id := funext restoreTables_nil
    rw [hid, List.map_id]
  rw [splitLongMessage_eq (by norm_num)
    (show ¬ (List.replicate 10000 'a').length ≤ 2000 from by
      simp only [List.length_replicate]
      omega), hmap, c2_mainChunks]
  rw [if_neg (show ¬ (List.replicate 8 (List.replicate 1200 'a') ++
      [List.replicate 400 'a']).isEmpty = true from by
    rw [show (8 : Nat) = 7 + 1 from rfl, List.replicate_succ]
    simp only [List.cons_append, List.isEmpty_cons]
    decide)]

theorem c2_lengths :
    (splitLongMessage (List.replicate 10000 'a') 2000).map List.length =
      [1200, 1200, 1200, 1200, 1200, 1200, 1200, 1200, 400] := by
  rw [c2_eval]
  simp only [List.map_append, List.map_replicate, List.length_replicate, List.map_cons,
    List.map_nil]
  rfl

/-! ## Restoration lemmas -/

theorem containsSub_cons_false {pat : List Char} {c : Char} {cs : List Char}
    (h : containsSub pat (c :: cs) = false) : containsSub pat cs = false := by
  simp only [containsSub, Bool.or_eq_false_iff] at h
  exact h.2

/-- A replacement free of the `$$`, `$&`, `` $` ``, `$'` escape sequences
is inserted verbatim by `GetSubstitution`. -/
theorem getSubstitution_no_escape {matched before after : List Char} :
    ∀ {r : List Char},
      (∀ d ∈ (['$', '&', '`', '\''] : List Char), containsSub ['$', d] r = false) →
      ∀ f, getSubstitution matched before after f r = r := by
  intro r
  induction r with
  | nil =>
    intro _ f
    cases f <;> rfl
  | cons c rest ih =>
    intro h f
    have htail : ∀ d ∈ (['$', '&', '`', '\''] : List Char),
        containsSub ['$', d] rest = false :=
      fun d hd => containsSub_cons_false (h d hd)
    cases f with
    | zero => rfl
    | succ f =>
      rw [getSubstitution]
      by_cases hc : c = '$'
      · subst hc
        have hne : ∀ d : Char, d ≠ ' ' → containsSub ['$', d] ('$' :: rest) = false →
            rest.headD ' ' ≠ d := by
          intro d hds hcf he
          cases rest with
          | nil => exact hds (by simpa using he.symm)
          | cons x t =>
            simp only [List.headD_cons] at he
            subst he
            simp [containsSub, startsWith] at hcf
        rw [if_pos rfl, if_neg (hne '$' (by decide) (h '$' (by simp))),
          if_neg (hne '&' (by decide) (h '&' (by simp))),
          if_neg (hne '`' (by decide) (h '`' (by simp))),
          if_neg (hne '\'' (by decide) (h '\'' (by simp))), ih htail f]
      · rw [if_neg hc, ih htail f]

theorem replaceAllAux_contains {pat repl : List Char} (hpat : pat ≠ [])
    (hrepl : ∀ d ∈ (['$', '&', '`', '\''] : List Char), containsSub ['$', d] repl = false) :
    ∀ (f : Nat) (pre s : List Char), s.length < f → containsSub pat s = true →
      containsSub repl (replaceAllAux pat repl f pre s) = true
  | 0, _, _, hf, _ => absurd hf (by omega)
  | _ + 1, _, [], _, hc => by
    simp [containsSub] at hc
    exact absurd (startsWith_nil_iff.mp hc) hpat
  | f + 1, pre, c :: cs, hf, hc => by
    rw [replaceAllAux]
    by_cases hsw : startsWith pat (c :: cs) = true
    · rw [if_pos hsw, getSubstitution_no_escape hrepl]
      exact containsSub_iff.mpr ⟨[], replaceAllAux pat repl f (pat.reverse ++ pre)
        ((c :: cs).drop pat.length), by simp⟩
    · rw [if_neg hsw]
      have hc' : containsSub pat cs = true := by
        rcases Bool.or_eq_true_iff.mp (by simpa [containsSub] using hc) with h | h
        · exact absurd h hsw
        · exact h
      exact containsSub_cons
        (replaceAllAux_contains hpat hrepl f (c :: pre) cs (by simp at hf; omega) hc')

theorem replaceAll_contains {pat repl : List Char} (hpat : pat ≠ [])
    (hrepl : ∀ d ∈ (['$', '&', '`', '\''] : List Char), containsSub ['$', d] repl = false)
    (s : List Char) (hc : containsSub pat s = true) :
    containsSub repl (replaceAll pat repl (s.length + 1) s) = true :=
  replaceAllAux_contains hpat hrepl (s.length + 1) [] s (by omega) hc

/-! ## Placeholder tokens are pairwise distinct -/

theorem digitsVal_append (l : List Char) (c : Char) :
    digitsVal (l ++ [c]) = 10 * digitsVal l + (c.toNat - 48) := by
  simp [digitsVal, List.foldl_append]

theorem digitChar_toNat {n : Nat} (h : n < 10) : (digitChar n).toNat = 48 + n := by
  interval_cases n <;> rfl

theorem digitsVal_natDigits : ∀ (f n : Nat), n < f → digitsVal (natDigits f n) = n
  | 0, _, hf => absurd hf (by omega)
  | f + 1, n, hf => by
    rw [natDigits]
    by_cases h : n < 10
    · rw [if_pos h]
      show digitsVal ([] ++ [digitChar n]) = n
      rw [digitsVal_append, digitChar_toNat h]
      simp [digitsVal]
    · rw [if_neg h, digitsVal_append,
        digitsVal_natDigits f (n / 10) (by omega),
        digitChar_toNat (Nat.mod_lt n (by omega))]
      omega

theorem natDigits_inj {i j : Nat} (h : natDigits (i + 1) i = natDigits (j + 1) j) :
    i = j := by
  have h1 := digitsVal_natDigits (i + 1) i (by omega)
  have h2 := digitsVal_natDigits (j + 1) j (by omega)
  rw [← h1, ← h2, h]

theorem codePh_inj {i j : Nat} (hij : i ≠ j) : codePh i ≠ codePh j := by
  intro h
  rw [codePh, codePh] at h
  exact hij (natDigits_inj (List.append_cancel_left (List.append_cancel_right h)))

theorem inlinePh_inj {i j : Nat} (hij : i ≠ j) : inlinePh i ≠ inlinePh j := by
  intro h
  rw [inlinePh, inlinePh] at h
  exact hij (natDigits_inj (List.append_cancel_left (List.append_cancel_right h)))

theorem codePh_ne_inlinePh (i j : Nat) : codePh i ≠ inlinePh j := by
  intro h
  rw [codePh, inlinePh] at h
  rw [show "___CODE_BLOCK_".toList = '_' :: '_' :: '_' :: 'C' :: "ODE_BLOCK_".toList
    from rfl] at h
  rw [show "___INLINE_CODE_".toList = '_' :: '_' :: '_' :: 'I' :: "NLINE_CODE_".toList
    from rfl] at h
  simp at h

/-! ## Over-budget chunks can only be the fallback text or a chunk grown
by placeholder restoration -/

theorem splitLongMessage_over_budget {text : List Char} {L : Nat} (hL : 2 ≤ L) :
    ∀ c ∈ splitLongMessage text L, L < c.length →
      c = text ∨ ∃ p ∈ preChunks text L,
        restoreTables (extract text).2.1 (extract text).2.2 p = c ∧ p ≠ c := by
  intro c hc hlen2
  by_cases hlen : text.length ≤ L
  · rw [splitLongMessage, if_pos hlen] at hc
    simp at hc
    exact Or.inl hc
  · rw [splitLongMessage_eq hL hlen] at hc
    by_cases he : ((mainChunks text L).map
        (restoreTables (extract text).2.1 (extract text).2.2)).isEmpty
    · rw [if_pos he] at hc
      simp at hc
      exact Or.inl hc
    · rw [if_neg he] at hc
      obtain ⟨p, hp, hrest⟩ := List.mem_map.mp hc
      refine Or.inr ⟨p, by rw [preChunks_eq hL hlen]; exact hp, hrest, ?_⟩
      intro hpc
      have := mainChunks_le hL p hp
      rw [hpc] at this
      omega

/-! ## The checker's parenthesis verdict -/

theorem hasProblematicMarkdown_paren {t : List Char}
    (ha : asteriskBad (stripCodeForAnalysis t) = false)
    (hu : underscoreBad (stripCodeForAnalysis t) = false)
    (hb : bracketBad (stripCodeForAnalysis t) = false) :
    hasProblematicMarkdown t = true ↔
      (stripCodeForAnalysis t).count '(' ≠ (stripCodeForAnalysis t).count ')' := by
  rw [hasProblematicMarkdown]
  simp only [ha, hu, hb, Bool.false_or, parenBad]
  simp [parenBad]

/-! ## Totality of `markdownToPlainText` -/

theorem scanRepl_isSome (step : Bool → List Char → Option (List Char × List Char × Bool))
    (hstep : ∀ ls s r rest b, step ls s = some (r, rest, b) → rest.length < s.length) :
    ∀ (f : Nat) (ls : Bool) (s : List Char), s.length < f →
      (scanRepl step f ls s).isSome = true
  | 0, _, _, hf => absurd hf (by omega)
  | _ + 1, _, [], _ => by simp [scanRepl]
  | f + 1, ls, c :: cs, hf => by
    rw [scanRepl]
    cases hm : step ls (c :: cs) with
    | some v =>
      obtain ⟨r, rest, b⟩ := v
      have hlt := hstep ls (c :: cs) r rest b hm
      simp only [Option.isSome_map']
      exact scanRepl_isSome step hstep f b rest (by simp at hf hlt ⊢; omega)
    | none =>
      simp only [Option.isSome_map']
      exact scanRepl_isSome step hstep f (c = '\n') cs (by simp at hf; omega)

theorem dropOptNl_length_le (s : List Char) : (dropOptNl s).length ≤ s.length := by
  unfold dropOptNl
  split
  · simp
  · exact Nat.le_refl _

theorem mdStepCode_shrink : ∀ (ls : Bool) (s r rest : List Char) (b : Bool),
    mdStepCode ls s = some (r, rest, b) → rest.length < s.length := by
  intro ls s r rest b hm
  rw [mdStepCode] at hm
  by_cases hsw : startsWith bt3 s = true
  · rw [if_pos hsw] at hm
    have hlen3 : 3 ≤ s.length := startsWith_length_le hsw
    simp only [] at hm
    cases hfi : firstIdx bt3
        (dropOptNl ((s.drop 3).drop ((s.drop 3).takeWhile isWordChar).length)) with
    | none => rw [hfi] at hm; simp at hm
    | some k =>
      rw [hfi] at hm
      simp only [Option.some.injEq, Prod.mk.injEq] at hm
      obtain ⟨-, hrest, -⟩ := hm
      subst hrest
      have h1 := dropOptNl_length_le ((s.drop 3).drop ((s.drop 3).takeWhile isWordChar).length)
      have h2 := List.length_drop (k + 3)
        (dropOptNl ((s.drop 3).drop ((s.drop 3).takeWhile isWordChar).length))
      simp only [List.length_drop] at h1 h2 ⊢
      omega
  · rw [if_neg hsw] at hm
    simp at hm

theorem mdStepInline_shrink : ∀ (ls : Bool) (s r rest : List Char) (b : Bool),
    mdStepInline ls s = some (r, rest, b) → rest.length < s.length := by
  intro ls s r rest b hm
  unfold mdStepInline at hm
  split at hm
  · rename_i cs
    simp only [] at hm
    split at hm
    · rename_i rest2 heq
      split at hm
      · simp at hm
      · simp only [Option.some.injEq, Prod.mk.injEq] at hm
        obtain ⟨-, hrest, -⟩ := hm
        subst hrest
        have := congrArg List.length heq
        simp only [List.length_drop, List.length_cons] at this
        simp only [List.length_cons]
        omega
    · simp at hm
  · simp at hm

theorem mdStepBold_shrink : ∀ (ls : Bool) (s r rest : List Char) (b : Bool),
    mdStepBold ls s = some (r, rest, b) → rest.length < s.length := by
  intro ls s r rest b hm
  rw [mdStepBold] at hm
  by_cases hsw : startsWith ('*' :: ['*']) s = true
  · rw [if_pos hsw] at hm
    have hlen2 : 2 ≤ s.length := startsWith_length_le hsw
    simp only [] at hm
    split at hm
    · rename_i k hfi
      simp only [Option.some.injEq, Prod.mk.injEq] at hm
      obtain ⟨-, hrest, -⟩ := hm
      subst hrest
      simp only [List.length_drop]
      omega
    · simp at hm
  · rw [if_neg hsw] at hm
    simp at hm

theorem mdStepDelim_shrink (m : Char) : ∀ (ls : Bool) (s r rest : List Char) (b : Bool),
    mdStepDelim m ls s = some (r, rest, b) → rest.length < s.length := by
  intro ls s r rest b hm
  unfold mdStepDelim at hm
  split at hm
  · rename_i c cs
    split at hm
    · simp only [] at hm
      split at hm
      · rename_i k hfi
        simp only [Option.some.injEq, Prod.mk.injEq] at hm
        obtain ⟨-, hrest, -⟩ := hm
        subst hrest
        simp only [List.length_drop, List.length_cons]
        omega
      · simp at hm
    · simp at hm
  · simp at hm

theorem linkLazyAux_shrink : ∀ (f : Nat) (lab t l rest : List Char),
    linkLazyAux f lab t = some (l, rest) → rest.length < t.length := by
  intro f
  induction f with
  | zero =>
    intro lab t l rest hm
    simp [linkLazyAux] at hm
  | succ f ih =>
    intro lab t l rest hm
    match t with
    | [] => simp [linkLazyAux] at hm
    | c :: t' =>
      rw [linkLazyAux] at hm
      by_cases h1 : c = ']' ∧ t'.headD ' ' = '(' ∧ t' ≠ []
      · rw [if_pos h1] at hm
        simp only [] at hm
        by_cases h2 : ((t'.tail.drop
            ((t'.tail.takeWhile (fun d => !(d = ')' || d = '\n'))).length)).headD ' ' = ')' ∧
            (t'.tail.drop
              ((t'.tail.takeWhile (fun d => !(d = ')' || d = '\n'))).length)) ≠ [])
        · rw [if_pos h2] at hm
          simp only [Option.some.injEq, Prod.mk.injEq] at hm
          obtain ⟨-, hrest⟩ := hm
          subst hrest
          simp only [List.length_cons, List.length_tail, List.length_drop]
          omega
        · rw [if_neg h2] at hm
          have := ih (']' :: lab) ('(' :: t'.tail) l rest hm
          simp only [List.length_cons, List.length_tail] at this ⊢
          omega
      · rw [if_neg h1] at hm
        by_cases h3 : c = '\n'
        · rw [if_pos h3] at hm
          simp at hm
        · rw [if_neg h3] at hm
          have := ih (c :: lab) t' l rest hm
          simp only [List.length_cons]
          omega

theorem mdStepLink_shrink : ∀ (ls : Bool) (s r rest : List Char) (b : Bool),
    mdStepLink ls s = some (r, rest, b) → rest.length < s.length := by
  intro ls s r rest b hm
  unfold mdStepLink at hm
  split at hm
  · rename_i cs
    split at hm
    · rename_i l' rest' hla
      simp only [Option.some.injEq, Prod.mk.injEq] at hm
      obtain ⟨-, hrest, -⟩ := hm
      subst hrest
      have := linkLazyAux_shrink (cs.length + 1) [] cs l' rest' hla
      simp only [List.length_cons]
      omega
    · simp at hm
  · simp at hm

theorem mdStepLineMark_shrink (m : Char) (many : Bool) (repl : List Char) :
    ∀ (ls : Bool) (s r rest : List Char) (b : Bool),
      mdStepLineMark m many repl ls s = some (r, rest, b) → rest.length < s.length := by
  intro ls s r rest b hm
  unfold mdStepLineMark at hm
  split at hm
  · rename_i c cs
    split at hm
    · simp only [Option.some.injEq, Prod.mk.injEq] at hm
      obtain ⟨-, hrest, -⟩ := hm
      subst hrest
      have h1 : (cs.drop (if many then cs.takeWhile (fun d => d = m) else []).length).length
          ≤ cs.length := by simp
      simp only [List.length_drop, List.length_cons] at h1 ⊢
      omega
    · simp at hm
  · simp at hm

theorem mdStepNumbered_shrink : ∀ (ls : Bool) (s r rest : List Char) (b : Bool),
    mdStepNumbered ls s = some (r, rest, b) → rest.length < s.length := by
  intro ls s r rest b hm
  unfold mdStepNumbered at hm
  split at hm
  · rename_i c cs
    split at hm
    · simp only [] at hm
      split at hm
      · rename_i after heq
        simp only [Option.some.injEq, Prod.mk.injEq] at hm
        obtain ⟨-, hrest, -⟩ := hm
        subst hrest
        have := congrArg List.length heq
        simp only [List.length_drop, List.length_cons] at this ⊢
        omega
      · simp at hm
    · simp at hm
  · simp at hm

theorem mdStepNl_shrink : ∀ (ls : Bool) (s r rest : List Char) (b : Bool),
    mdStepNl ls s = some (r, rest, b) → rest.length < s.length := by
  intro ls s r rest b hm
  unfold mdStepNl at hm
  split at hm
  · rename_i cs
    simp only [] at hm
    split at hm
    · rename_i hrun
      simp only [Option.some.injEq, Prod.mk.injEq] at hm
      obtain ⟨-, hrest, -⟩ := hm
      subst hrest
      simp only [List.length_drop, List.length_cons]
      omega
    · simp at hm
  · simp at hm

theorem markdownToPlainText_total (s : List Char) :
    ∃ r, markdownToPlainText s = some r := by
  rw [markdownToPlainText]
  obtain ⟨s1, h1⟩ := Option.isSome_iff_exists.mp
    (scanRepl_isSome mdStepCode mdStepCode_shrink (s.length + 1) true s (by omega))
  rw [h1, Option.some_bind]
  obtain ⟨s2, h2⟩ := Option.isSome_iff_exists.mp
    (scanRepl_isSome mdStepInline mdStepInline_shrink (s1.length + 1) true s1 (by omega))
  rw [h2, Option.some_bind]
  obtain ⟨s3, h3⟩ := Option.isSome_iff_exists.mp
    (scanRepl_isSome mdStepBold mdStepBold_shrink (s2.length + 1) true s2 (by omega))
  rw [h3, Option.some_bind]
  obtain ⟨s4, h4⟩ := Option.isSome_iff_exists.mp
    (scanRepl_isSome (mdStepDelim '*') (mdStepDelim_shrink '*') (s3.length + 1) true s3
      (by omega))
  rw [h4, Option.some_bind]
  obtain ⟨s5, h5⟩ := Option.isSome_iff_exists.mp
    (scanRepl_isSome (mdStepDelim '_') (mdStepDelim_shrink '_') (s4.length + 1) true s4
      (by omega))
  rw [h5, Option.some_bind]
  obtain ⟨s6, h6⟩ := Option.isSome_iff_exists.mp
    (scanRepl_isSome mdStepLink mdStepLink_shrink (s5.length + 1) true s5 (by omega))
  rw [h6, Option.some_bind]
  obtain ⟨s7, h7⟩ := Option.isSome_iff_exists.mp
    (scanRepl_isSome (mdStepLineMark '#' true ("▶ ".toList))
      (mdStepLineMark_shrink '#' true ("▶ ".toList)) (s6.length + 1) true s6 (by omega))
  rw [h7, Option.some_bind]
  obtain ⟨s8, h8⟩ := Option.isSome_iff_exists.mp
    (scanRepl_isSome (mdStepLineMark '>' false ("💬 ".toList))
      (mdStepLineMark_shrink '>' false ("💬 ".toList)) (s7.length + 1) true s7 (by omega))
  rw [h8, Option.some_bind]
  obtain ⟨s9, h9⟩ := Option.isSome_iff_exists.mp
    (scanRepl_isSome (mdStepLineMark '*' false ("• ".toList))
      (mdStepLineMark_shrink '*' false ("• ".toList)) (s8.length + 1) true s8 (by omega))
  rw [h9, Option.some_bind]
  obtain ⟨s10, h10⟩ := Option.isSome_iff_exists.mp
    (scanRepl_isSome mdStepNumbered mdStepNumbered_shrink (s9.length + 1) true s9
      (by omega))
  rw [h10, Option.some_bind]
  exact Option.isSome_iff_exists.mp
    (scanRepl_isSome mdStepNl mdStepNl_shrink (s10.length + 1) true s10 (by omega))

/-! ## Claim theorems -/

/-- C1 (amended): the budget is enforced on the pre-restoration chunks
only.  For `maxLength ≥ 2`, any returned chunk longer than `maxLength` is
either the whole original text (returned verbatim by the short-input path
or the whitespace fallback) or a chunk that placeholder restoration
changed — and such a chunk may exceed the budget even when every restored
span is itself shorter than `maxLength`. -/
theorem c1_budget_after_restoration {text : List Char} {L : Nat} (hL : 2 ≤ L) :
    ∀ c ∈ splitLongMessage text L, L < c.length →
      c = text ∨ ∃ p ∈ preChunks text L,
        restoreTables (extract text).2.1 (extract text).2.2 p = c ∧ p ≠ c :=
  splitLongMessage_over_budget hL

theorem c1_budget_witness :
    List.replicate 6 ' ' = List.replicate 6 ' ' ∨
      ∃ p ∈ preChunks (List.replicate 6 ' ') 5,
        restoreTables (extract (List.replicate 6 ' ')).2.1
          (extract (List.replicate 6 ' ')).2.2 p = List.replicate 6 ' ' ∧
        p ≠ List.replicate 6 ' ' :=
  c1_budget_after_restoration (by decide) (List.replicate 6 ' ') (by decide) (by decide)

/-- C1 fails as stated: on `"XXXX `cc…c`"` (36 `c`s) with budget 40, the
single returned chunk has length 43 > 40 although the only restored code
span has length 38 ≤ 40. -/
theorem c1_counterexample :
    ¬(∀ c ∈ splitLongMessage ("XXXX ".toList ++ '`' :: List.replicate 36 'c' ++ ['`']) 40,
        (∀ sp ∈ (extract ("XXXX ".toList ++ '`' :: List.replicate 36 'c' ++ ['`'])).2.1 ++
            (extract ("XXXX ".toList ++ '`' :: List.replicate 36 'c' ++ ['`'])).2.2,
          40 < sp.length → containsSub sp c = false) →
        c.length ≤ 40) := by
  decide

/-- C2 (amended): a 10,000-character unbroken line with budget 2000 is cut
by the word-tier hard cutter at `floor(0.6·2000) = 1200`, yielding nine
chunks: eight of 1200 characters and one of 400 — not five chunks of
2000. -/
theorem c2_word_tier_chunks :
    (splitLongMessage (List.replicate 10000 'a') 2000).map List.length =
      [1200, 1200, 1200, 1200, 1200, 1200, 1200, 1200, 400] :=
  c2_lengths

/-- C2 fails as stated: the output is not five chunks of 2000. -/
theorem c2_counterexample :
    ¬((splitLongMessage (List.replicate 10000 'a') 2000).length = 5 ∧
      ∀ c ∈ splitLongMessage (List.replicate 10000 'a') 2000, c.length = 2000) := by
  rintro ⟨h5, -⟩
  have h9 := congrArg List.length c2_lengths
  simp only [List.length_map] at h9
  rw [h5] at h9
  simp at h9

/-- C3 (amended): chunks are validated against the budget before
placeholder restoration — every pre-restoration chunk has length at most
`maxLength` (for `maxLength ≥ 2`, which also makes the forced re-splitting
pass dead code).  Restoration runs after validation, so a chunk pushed
over budget by restoring a span is returned to the caller as is. -/
theorem c3_validation_before_restoration {text : List Char} {L : Nat} (hL : 2 ≤ L) :
    ∀ p ∈ preChunks text L, p.length ≤ L :=
  preChunks_le hL

theorem c3_validation_witness : ("aaa".toList).length ≤ 5 :=
  @c3_validation_before_restoration ("aaaa bbbb".toList) 5 (by decide) ("aaa".toList)
    (by decide)

/-- C3 fails as stated: on `"YYYY `dd…d`"` (36 `d`s) with budget 40 the
caller receives a 43-character chunk — the post-restoration budget
violation is surfaced, not repaired. -/
theorem c3_counterexample :
    ∃ c ∈ splitLongMessage ("YYYY ".toList ++ '`' :: List.replicate 36 'd' ++ ['`']) 40,
      40 < c.length := by
  decide

/-- C4 (amended): concatenation fidelity holds for inputs without
backticks (no protected spans extracted): every non-whitespace character
occurs in the concatenated output exactly as often as in the input
(`maxLength ≥ 2`).  With backticks it can fail: a placeholder split by the
hard cutter is never restored, and a literal placeholder-shaped substring
in the user text is overwritten by restoration. -/
theorem c4_fidelity_no_backtick {ch : Char} {text : List Char} {L : Nat}
    (hch : isWs ch = false) (hL : 2 ≤ L) (hbt : ∀ c ∈ text, c ≠ '`') :
    (splitLongMessage text L).flatten.count ch = text.count ch :=
  splitLongMessage_count hch hL hbt

theorem c4_fidelity_witness :
    (splitLongMessage ("hello world".toList) 5).flatten.count 'o' =
      ("hello world".toList).count 'o' :=
  c4_fidelity_no_backtick (by decide) (by decide) (by decide)

/-- C4 fails as stated: on `"___INLINE_CODE_0___ `xx…x`"` (25 `x`s) with
budget 40, the global-regex restoration substitutes the user's literal
placeholder text too, duplicating the code span: the output contains 50
`x`s, the input 25. -/
theorem c4_counterexample :
    isWs 'x' = false ∧
    (splitLongMessage ("___INLINE_CODE_0___ ".toList ++ '`' :: List.replicate 25 'x' ++ ['`'])
        40).flatten.count 'x' ≠
      ("___INLINE_CODE_0___ ".toList ++ '`' :: List.replicate 25 'x' ++ ['`']).count 'x' := by
  decide

/-- C5: an input within the budget is returned as the single unchanged
chunk `[text]` — no splitting, no annotations. -/
theorem c5_short_input_identity {text : List Char} {L : Nat} (h : text.length ≤ L) :
    splitLongMessage text L = [text] := by
  rw [splitLongMessage, if_pos h]

theorem c5_short_input_witness : splitLongMessage ("hi there".toList) 10 =
    [("hi there".toList)] :=
  c5_short_input_identity (by decide)

/-- C6 (amended): restoration is atomic for blocks free of JS replacement
escapes — whenever a chunk still carries an intact `___CODE_BLOCK_i___`
token and the block contains none of the `GetSubstitution` sequences `$$`,
`$&`, `` $` ``, `$'`, the `replaceAll` of the restoration pass inserts the
entire block contiguously into that single chunk.  A block containing such
a sequence is mangled by `String.replace`'s substitution instead, and a
token fragmented by the hard word cutter is never restored, in which case
the block is omitted from the output entirely rather than split across two
chunks. -/
theorem c6_restoration_atomic {i : Nat} {blk chunk : List Char}
    (hd : ∀ d ∈ (['$', '&', '`', '\''] : List Char), containsSub ['$', d] blk = false)
    (hc : containsSub (codePh i) chunk = true) :
    containsSub blk (replaceAll (codePh i) blk (chunk.length + 1) chunk) = true :=
  replaceAll_contains (by simp [codePh]) hd chunk hc

theorem c6_restoration_witness :
    containsSub ("```q```".toList) (replaceAll (codePh 0) ("```q```".toList)
      (("x___CODE_BLOCK_0___y".toList).length + 1) ("x___CODE_BLOCK_0___y".toList)) =
      true :=
  c6_restoration_atomic (by decide) (by decide)

/-- C6 fails as stated: the fenced block ```` ```a``` ```` (7 < 20
characters) of the input appears in no chunk at all — its placeholder was
fragmented by the word-tier hard cutter, so the block is absent from the
output. -/
theorem c6_counterexample :
    containsSub ("```a```".toList) ("```a```".toList ++ List.replicate 20 'B') = true ∧
    ("```a```".toList).length < 20 ∧
    ¬∃ c ∈ splitLongMessage ("```a```".toList ++ List.replicate 20 'B') 20,
      containsSub ("```a```".toList) c = true := by
  decide

/-- C7 (amended): the extractor's tokens are pairwise distinct
(`___CODE_BLOCK_i___` and `___INLINE_CODE_j___` never coincide for
distinct indices or across families), but they are not guaranteed to avoid
user text: restoration's global replace substitutes every occurrence of a
token in a chunk, including placeholder-shaped text the user wrote. -/
theorem c7_tokens_distinct (i j : Nat) :
    (i ≠ j → codePh i ≠ codePh j) ∧ (i ≠ j → inlinePh i ≠ inlinePh j) ∧
      codePh i ≠ inlinePh j :=
  ⟨fun h => codePh_inj h, fun h => inlinePh_inj h, codePh_ne_inlinePh i j⟩

theorem c7_tokens_witness :
    codePh 0 ≠ codePh 1 ∧ inlinePh 0 ≠ inlinePh 1 ∧ codePh 2 ≠ inlinePh 2 :=
  ⟨(c7_tokens_distinct 0 1).1 (by decide), (c7_tokens_distinct 0 1).2.1 (by decide),
    (c7_tokens_distinct 2 2).2.2⟩

/-- C7 fails as stated: the input starts with the literal user text
`___CODE_BLOCK_0___` (outside any code span), yet no output chunk contains
it — restoration replaced the user's literal text with the extracted
block. -/
theorem c7_counterexample :
    containsSub ("___CODE_BLOCK_0___".toList)
      ("___CODE_BLOCK_0___ ".toList ++ "```".toList ++ List.replicate 20 'q' ++
        "```".toList) = true ∧
    ¬∃ c ∈ splitLongMessage
        ("___CODE_BLOCK_0___ ".toList ++ "```".toList ++ List.replicate 20 'q' ++
          "```".toList) 40,
      containsSub ("___CODE_BLOCK_0___".toList) c = true := by
  decide

/-- C8 (amended): when the asterisk, underscore and bracket checks pass,
`hasProblematicMarkdown` reports a problem exactly when the total count of
`(` differs from the total count of `)` in the code-stripped text —
including parentheses inside `[text](url)` links (the link-paren counts
the source computes are dead variables). -/
theorem c8_paren_totals {t : List Char}
    (ha : asteriskBad (stripCodeForAnalysis t) = false)
    (hu : underscoreBad (stripCodeForAnalysis t) = false)
    (hb : bracketBad (stripCodeForAnalysis t) = false) :
    hasProblematicMarkdown t = true ↔
      (stripCodeForAnalysis t).count '(' ≠ (stripCodeForAnalysis t).count ')' :=
  hasProblematicMarkdown_paren ha hu hb

theorem c8_paren_witness :
    hasProblematicMarkdown ("(x".toList) = true ↔
      (stripCodeForAnalysis ("(x".toList)).count '(' ≠
        (stripCodeForAnalysis ("(x".toList)).count ')' :=
  c8_paren_totals (by decide) (by decide) (by decide)

/-- C8 fails as stated: on `"[a](b(c)"` every parenthesis lies inside the
single valid link construct, so the spec's outside-link counts balance —
yet the checker reports a problem, because it compares raw totals. -/
theorem c8_counterexample :
    hasProblematicMarkdown ("[a](b(c)".toList) = true ∧
    specParenMismatch ("[a](b(c)".toList) = false ∧
    asteriskBad (stripCodeForAnalysis ("[a](b(c)".toList)) = false ∧
    underscoreBad (stripCodeForAnalysis ("[a](b(c)".toList)) = false ∧
    bracketBad (stripCodeForAnalysis ("[a](b(c)".toList)) = false := by
  decide

/-- C9: `markdownToPlainText` is total — every string input (the empty
string and delimiter-only strings included) produces a result; the fuel of
every scanning pass is shown sufficient. -/
theorem c9_plain_text_total (s : List Char) : ∃ r, markdownToPlainText s = some r :=
  markdownToPlainText_total s

/-- C10 (amended): `splitLongMessage` always returns a non-empty list
(`maxLength ≥ 2`); for over-budget inputs consisting only of spaces and
newlines every tier produces only empty trimmed chunks and the original
text comes back as a single over-budget chunk.  Restricting to spaces and
newlines is necessary: other whitespace (tabs) can be hard-cut into
whitespace-only chunks instead. -/
theorem c10_nonempty_ws_fallback {text : List Char} {L : Nat} (hL : 2 ≤ L) :
    splitLongMessage text L ≠ [] ∧
      ((∀ c ∈ text, c = ' ' ∨ c = '\n') → L < text.length →
        splitLongMessage text L = [text]) :=
  ⟨splitLongMessage_ne_nil hL, fun hsub hlen => splitLongMessage_ws hL hsub hlen⟩

theorem c10_nonempty_witness :
    splitLongMessage (List.replicate 7 ' ') 6 ≠ [] ∧
      splitLongMessage (List.replicate 7 ' ') 6 = [List.replicate 7 ' '] :=
  ⟨(c10_nonempty_ws_fallback (by decide)).1,
    (c10_nonempty_ws_fallback (by decide)).2 (by decide) (by decide)⟩

/-- C10 fails as stated: eleven tabs with budget 10 are whitespace-only and
over budget, but the word-tier hard cutter still produces a six-tab chunk —
the function does not fall back to the original text. -/
theorem c10_counterexample :
    splitLongMessage (List.replicate 11 '\t') 10 = [List.replicate 6 '\t'] ∧
      splitLongMessage (List.replicate 11 '\t') 10 ≠ [List.replicate 11 '\t'] := by
  decide

end Chatbot
